import Mathlib

/-!
Verification of the videoad worker core against its specification.

The Lean definitions below are a shallow embedding of the Python sources:

* `src/workers/queue.py`            — Redis-backed reliable FIFO task queue
* `src/workers/rate_limiter.py`     — Redis sliding-window rate limiter
* `src/workers/fallback_limiter.py` — in-memory fallback limiter + job slots
* `src/workers/autoscaler.py`       — queue-depth autoscaler
* `src/workers/main.py`             — webhook admission, consumer loop,
                                      orchestrator exception handling

Redis lists are modelled as Lean lists whose head is the Redis head (the
LPUSH side); BRPOPLPUSH/BLMOVE pops the Redis tail, i.e. the Lean
`getLast?`.  Redis hashes are modelled as records of optional fields
(`none` = field absent); an absent hash key is `none` at the map level.
Machine time is modelled by integers.
-/

namespace Queue

/-- `redis_client.lrem(key, 1, j)`: remove the first occurrence of `j`,
scanning from the head. -/
def lrem1 : List String → String → List String
  | [], _ => []
  | x :: xs, j => if x = j then xs else x :: lrem1 xs j

/-- The fields of the `taskqueue:meta:{job_id}` Redis hash
(`enqueue_task` writes the first six; `processing_started_at` and
`last_error` are added later by `hset`). `none` means the field is absent. -/
structure TaskMeta where
  user_id : Option String := none
  task_type : Option String := none
  payload : Option String := none
  enqueued_at : Option Int := none
  status : Option String := none
  retries : Option Nat := none
  last_error : Option String := none
  processing_started_at : Option Int := none
deriving DecidableEq, Repr

/-- The queue state: the three Redis lists (`taskqueue:jobs`,
`taskqueue:processing`, `taskqueue:dead_letter`) and the per-job
metadata hashes (`taskqueue:meta:{job_id}`; `none` = key absent). -/
structure QueueState where
  pending : List String
  processing : List String
  dead : List String
  meta : String → Option TaskMeta

/-- An empty Redis instance. -/
def initState : QueueState := ⟨[], [], [], fun _ => none⟩

/-- `redis_client.hset(meta_key, ...)`: update fields of the hash,
creating the hash when the key is absent. -/
def hsetMeta (μ : String → Option TaskMeta) (j : String) (f : TaskMeta → TaskMeta) :
    String → Option TaskMeta :=
  fun x => if x = j then some (f ((μ x).getD {})) else μ x

/-- `MAX_RETRIES = 3` (queue.py line 30). -/
def MAX_RETRIES : Nat := 3

/-- `STALE_TASK_TIMEOUT = 600` seconds (queue.py line 31). -/
def STALE_TASK_TIMEOUT : Int := 600

/-- `update_task_status(redis_client, job_id, status)` (queue.py 257-260). -/
def update_task_status (s : QueueState) (j : String) (st : String) : QueueState :=
  { s with meta := hsetMeta s.meta j (fun m => { m with status := some st }) }

/-- `enqueue_task` (queue.py 36-71): write the metadata hash, LPUSH the id
onto `taskqueue:jobs`, and return the queue position (`llen` after push). -/
def enqueue_task (now : Int) (user_id job_id task_type payload : String)
    (s : QueueState) : QueueState × Nat :=
  let s' : QueueState :=
    { s with
      meta := hsetMeta s.meta job_id (fun m =>
        { m with
          user_id := some user_id
          task_type := some task_type
          payload := some payload
          enqueued_at := some now
          status := some "queued"
          retries := some 0 })
      pending := job_id :: s.pending }
  (s', s'.pending.length)

/-- `dequeue_task` (queue.py 76-107): BLMOVE pops the tail of
`taskqueue:jobs` and pushes it onto the head of `taskqueue:processing`;
then `processing_started_at` is stamped.  `none` models a timeout on an
empty queue. -/
def dequeue_task (now : Int) (s : QueueState) : Option (String × QueueState) :=
  match s.pending.getLast? with
  | none => none
  | some job_id =>
    let s' : QueueState :=
      { s with
        pending := s.pending.dropLast
        processing := job_id :: s.processing }
    some (job_id,
      { s' with meta := hsetMeta s'.meta job_id (fun m =>
          { m with processing_started_at := some now }) })

/-- `ack_task` (queue.py 112-118): LREM from processing, mark completed. -/
def ack_task (s : QueueState) (job_id : String) : QueueState :=
  update_task_status { s with processing := lrem1 s.processing job_id } job_id "completed"

/-- `nack_task` (queue.py 121-147): increment the retry count, record the
error truncated to 500 characters when non-empty, LREM from processing,
then requeue (LPUSH onto `taskqueue:jobs`) if `retries < MAX_RETRIES`,
else LPUSH onto `taskqueue:dead_letter`. -/
def nack_task (s : QueueState) (job_id : String) (error_msg : String) : QueueState :=
  let retries := ((s.meta job_id).bind TaskMeta.retries).getD 0 + 1
  let s1 : QueueState :=
    { s with meta := hsetMeta s.meta job_id (fun m => { m with retries := some retries }) }
  let s2 : QueueState :=
    if error_msg ≠ "" then
      { s1 with meta := hsetMeta s1.meta job_id (fun m =>
          { m with last_error := some (error_msg.take 500) }) }
    else s1
  let s3 : QueueState := { s2 with processing := lrem1 s2.processing job_id }
  if retries < MAX_RETRIES then
    update_task_status { s3 with pending := job_id :: s3.pending } job_id "queued"
  else
    update_task_status { s3 with dead := job_id :: s3.dead } job_id "dead_letter"

/-- The `processing_started_at` value `recover_stale_tasks` reads:
`float(meta.get("processing_started_at", 0))`. -/
def startedAt (m : TaskMeta) : Int := m.processing_started_at.getD 0

/-- The recovery test of queue.py line 176:
`started_at > 0 and (now - started_at) > STALE_TASK_TIMEOUT`,
evaluated on a metadata map `μ` (`false` when the hash is absent). -/
def staleB (now : Int) (μ : String → Option TaskMeta) (j : String) : Bool :=
  match μ j with
  | none => false
  | some m => decide (0 < startedAt m ∧ now - startedAt m > STALE_TASK_TIMEOUT)

/-- A processing entry that `recover_stale_tasks` leaves in place:
its metadata exists and the recovery test fails. -/
def keepB (now : Int) (μ : String → Option TaskMeta) (j : String) : Bool :=
  match μ j with
  | none => false
  | some m => !(decide (0 < startedAt m ∧ now - startedAt m > STALE_TASK_TIMEOUT))

/-- One iteration of the `for item in processing_items` loop of
`recover_stale_tasks` (queue.py 165-183). -/
def recoverStep (now : Int) (acc : QueueState × Nat) (job_id : String) :
    QueueState × Nat :=
  let st := acc.1
  match st.meta job_id with
  | none =>
    ({ st with processing := lrem1 st.processing job_id }, acc.2)
  | some m =>
    if 0 < startedAt m ∧ now - startedAt m > STALE_TASK_TIMEOUT then
      (update_task_status
        { st with
          processing := lrem1 st.processing job_id
          pending := job_id :: st.pending } job_id "queued",
       acc.2 + 1)
    else acc

/-- `recover_stale_tasks` (queue.py 152-187): iterate over a snapshot of
`taskqueue:processing` (LRANGE 0 -1, head to tail); orphans (no metadata)
are removed, stale entries are moved back to `taskqueue:jobs`; returns the
number recovered. -/
def recover_stale_tasks (now : Int) (s : QueueState) : QueueState × Nat :=
  s.processing.foldl (recoverStep now) (s, 0)

/-- `retry_dead_letter` (queue.py 201-212): when the metadata key exists,
LREM from the dead-letter list, reset retries to 0, LPUSH back onto
`taskqueue:jobs` and mark queued. -/
def retry_dead_letter (s : QueueState) (job_id : String) : QueueState × Bool :=
  if s.meta job_id = none then (s, false)
  else
    let s1 : QueueState := { s with dead := lrem1 s.dead job_id }
    let s2 : QueueState :=
      { s1 with meta := hsetMeta s1.meta job_id (fun m => { m with retries := some 0 }) }
    (update_task_status { s2 with pending := job_id :: s2.pending } job_id "queued", true)

/-- `get_queue_length` (queue.py 233-235). -/
def get_queue_length (s : QueueState) : Nat := s.pending.length

/-- `get_processing_count` (queue.py 238-240). -/
def get_processing_count (s : QueueState) : Nat := s.processing.length

end Queue

namespace RateLimiter

/-- The `(allowed, remaining, retry_after_seconds)` triple returned by both
`check_rate_limit` implementations. -/
structure RLResult where
  allowed : Bool
  remaining : Int
  retry_after : Int
deriving DecidableEq, Repr

/-- `rate_limiter.check_rate_limit` (rate_limiter.py 20-73), as a function
of the current contents of the `ratelimit:{user_id}` sorted set (the list
of scores), the clock, and the limits.  `ZREMRANGEBYSCORE key 0 ws`
removes scores in `[0, ws]`; `ZCARD` counts; `ZRANGE key 0 0` yields the
minimum score; on allow, `ZADD` inserts `now` (a set: no duplicate
members).  Returns the result triple and the new set contents. -/
def redis_check_rate_limit (log : List Int) (now : Int)
    (max_requests window_seconds : Int) : RLResult × List Int :=
  let window_start := now - window_seconds
  let kept := log.filter (fun ts => decide (¬(0 ≤ ts ∧ ts ≤ window_start)))
  let current_count : Int := kept.length
  if max_requests ≤ current_count then
    match kept.min? with
    | some oldest_score =>
      ({ allowed := false, remaining := 0
         retry_after := oldest_score + window_seconds - now + 1 }, kept)
    | none =>
      ({ allowed := false, remaining := 0, retry_after := window_seconds }, kept)
  else
    ({ allowed := true, remaining := max_requests - current_count - 1, retry_after := 0 },
     if now ∈ kept then kept else kept ++ [now])

/-- `fallback_limiter.check_rate_limit` (fallback_limiter.py 29-64), as a
function of the user's `_request_log` entry.  Trims with strict `>`,
denies when `len(timestamps) >= max_requests` using `timestamps[0]` as
oldest, else appends `now`. -/
def fallback_check_rate_limit (log : List Int) (now : Int)
    (max_requests window_seconds : Int) : RLResult × List Int :=
  let window_start := now - window_seconds
  let timestamps := log.filter (fun ts => decide (ts > window_start))
  if max_requests ≤ (timestamps.length : Int) then
    let oldest := timestamps.head?.getD now
    ({ allowed := false, remaining := 0
       retry_after := oldest + window_seconds - now + 1 }, timestamps)
  else
    ({ allowed := true, remaining := max_requests - (timestamps.length : Int) - 1
       retry_after := 0 }, timestamps ++ [now])

end RateLimiter

namespace Autoscaler

/-- `math.ceil(load / target)` for naturals with `target > 0`. -/
def ceilDiv (load target : Nat) : Nat := (load + target - 1) / target

/-- The `desired_replicas` field of `get_scaling_decision`
(autoscaler.py 35-47):
`desired = ceil(total_load / TARGET_PER_REPLICA) if total_load > 0 else MIN;`
`desired = max(MIN, min(MAX, desired))`. -/
def get_scaling_decision (queue_depth processing_count : Nat)
    (MIN_REPLICAS MAX_REPLICAS TARGET_PER_REPLICA : Nat) : Nat :=
  let total_load := queue_depth + processing_count
  let desired :=
    if total_load > 0 then ceilDiv total_load TARGET_PER_REPLICA else MIN_REPLICAS
  max MIN_REPLICAS (min MAX_REPLICAS desired)

/-- The `reason` field of `get_scaling_decision` (autoscaler.py 49-56). -/
def scaling_reason (queue_depth processing_count : Nat)
    (MIN_REPLICAS MAX_REPLICAS TARGET_PER_REPLICA : Nat) : String :=
  let total_load := queue_depth + processing_count
  let desired := get_scaling_decision queue_depth processing_count
    MIN_REPLICAS MAX_REPLICAS TARGET_PER_REPLICA
  if total_load = 0 then "idle"
  else if desired = MAX_REPLICAS then "at_max"
  else if desired > 1 then "scaling_up"
  else "nominal"

end Autoscaler

namespace Main

open Queue RateLimiter

/-- `MAX_CONCURRENT_JOBS = 3` (fallback_limiter.py 19). -/
def MAX_CONCURRENT_JOBS : Nat := 3

/-- `fallback_limiter.acquire_job_slot` (fallback_limiter.py 69-79):
returns whether a slot was granted together with the new `_active_jobs`. -/
def acquire_job_slot (active_jobs : Nat) : Bool × Nat :=
  if active_jobs ≥ MAX_CONCURRENT_JOBS then (false, active_jobs)
  else (true, active_jobs + 1)

/-- `fallback_limiter.release_job_slot` (fallback_limiter.py 82-86):
`_active_jobs = max(0, _active_jobs - 1)` (natural subtraction floors at 0). -/
def release_job_slot (active_jobs : Nat) : Nat := active_jobs - 1

/-- Abstracts the outcome of the body of the orchestrator's `try:` block
(provider submit + polling + store writes): either it completes with a
video URL, or some statement in it raises an exception with message `msg`. -/
inductive BodyOutcome where
  | success (url : String)
  | raises (msg : String)
deriving DecidableEq, Repr

/-- One `supabase.table("jobs").update({...})` call. -/
structure JobsRowUpdate where
  status : String
  error_message : Option String := none
  output_url : Option String := none
deriving DecidableEq, Repr

/-- The `except Exception as e:` block of `process_video_job`
(main.py 363-368): writes `status = "failed"` with `error_message =
str(e)` — the full message, no truncation — and falls through without
re-raising (the `Bool` is whether the exception propagates to the caller). -/
def video_except_handler (msg : String) : JobsRowUpdate × Bool :=
  ({ status := "failed", error_message := some msg }, false)

/-- `process_video_job` (main.py 257-368) abstracted over the outcome of
its `try:` body: the final `jobs`-row update it performs, and whether an
exception escapes to its caller. -/
def process_video_job (outcome : BodyOutcome) : JobsRowUpdate × Bool :=
  match outcome with
  | .success url => ({ status := "completed", output_url := some url }, false)
  | .raises msg => video_except_handler msg

/-- The `except Exception as e:` block of `process_fashion_job`
(main.py 1317-1322): identical shape to the video handler. -/
def fashion_except_handler (msg : String) : JobsRowUpdate × Bool :=
  ({ status := "failed", error_message := some msg }, false)

/-- `process_fashion_job` (main.py 1020-1322) abstracted over the outcome
of its `try:` body. -/
def process_fashion_job (outcome : BodyOutcome) : JobsRowUpdate × Bool :=
  match outcome with
  | .success url => ({ status := "completed", output_url := some url }, false)
  | .raises msg => fashion_except_handler msg

/-- The ack/nack decision of `_queue_consumer_loop` (main.py 132-161):
the orchestrator call runs under `try/except`; on a propagated exception
the task is nacked with `str(task_err)`, otherwise it is acked. -/
def consumer_handle_result (s : QueueState) (job_id : String)
    (propagated : Option String) : QueueState :=
  match propagated with
  | some err => nack_task s job_id err
  | none => ack_task s job_id

/-- The exception that `process_video_job outcome` propagates into the
consumer loop's `except` clause: always `none`, because the orchestrator
swallows its body's exceptions. -/
def video_job_propagates (outcome : BodyOutcome) : Option String :=
  if (process_video_job outcome).2 then
    match outcome with
    | .raises msg => some msg
    | .success _ => none
  else none

/-- The HTTP response of `handle_webhook` as far as the claims are
concerned: status code, optional `Retry-After` header, and whether the
job was enqueued to Redis. -/
structure WebhookResponse where
  status_code : Nat
  retry_after_header : Option Int := none
  job_queued : Bool := false
deriving DecidableEq, Repr

/-- `handle_webhook` (main.py 370-437) after the rate-limit check result
`rl` is known.  `redis_queue = some qs` models a reachable Redis
(enqueue path); `none` models fallback mode, where a concurrency slot is
acquired before spawning the inline background task.  Returns the
response, the resulting queue state, the resulting `_active_jobs`
counter, and whether an inline background task was spawned. -/
def handle_webhook (redis_queue : Option QueueState) (rl : RLResult)
    (active_jobs : Nat) (now : Int) (user_id job_id payload : String) :
    WebhookResponse × Option QueueState × Nat × Bool :=
  if rl.allowed = false then
    ({ status_code := 429, retry_after_header := some rl.retry_after },
     redis_queue, active_jobs, false)
  else
    match redis_queue with
    | some qs =>
      ({ status_code := 200, job_queued := true },
       some (enqueue_task now user_id job_id "video_generate" payload qs).1,
       active_jobs, false)
    | none =>
      let (granted, active') := acquire_job_slot active_jobs
      if granted then
        ({ status_code := 200 }, none, active', true)
      else
        ({ status_code := 503 }, none, active', false)

/-- `_run_and_release` (main.py 427-434): run the orchestrator under
`try/finally`; the slot is released on every exit path, whatever the
body's outcome.  Takes the `_active_jobs` value after acquisition. -/
def run_and_release (active_after_acquire : Nat) (outcome : BodyOutcome) :
    (JobsRowUpdate × Bool) × Nat :=
  (process_video_job outcome, release_job_slot active_after_acquire)

end Main

namespace Queue

/-- The retry count a job currently carries:
`int(redis_client.hget(meta_key, "retries") or 0)`. -/
def retriesOf (s : QueueState) (j : String) : Nat :=
  ((s.meta j).bind TaskMeta.retries).getD 0

/-- One step of the queue system as the repository drives it:
`enqueue_task` for a fresh job id (webhook admission, distinct ids),
`dequeue_task` (consumer loop), `ack_task`/`nack_task` for the job the
consumer just dequeued (hence in-flight), `recover_stale_tasks` (startup
and periodic), and `retry_dead_letter` for a dead-lettered id (manual
dead-letter retry). -/
inductive QStep : QueueState → QueueState → Prop where
  | enqueue (now : Int) (u j tt pl : String) (s : QueueState) :
      j ∉ s.pending → j ∉ s.processing → j ∉ s.dead →
      QStep s (enqueue_task now u j tt pl s).1
  | dequeue (now : Int) (s : QueueState) (j : String) (s' : QueueState) :
      dequeue_task now s = some (j, s') → QStep s s'
  | ack (s : QueueState) (j : String) :
      j ∈ s.processing → QStep s (ack_task s j)
  | nack (s : QueueState) (j err : String) :
      j ∈ s.processing → QStep s (nack_task s j err)
  | recover (now : Int) (s : QueueState) :
      QStep s (recover_stale_tasks now s).1
  | retryDead (s : QueueState) (j : String) :
      j ∈ s.dead → QStep s (retry_dead_letter s j).1

/-- Queue states reachable from an empty Redis instance. -/
def Reachable (s : QueueState) : Prop :=
  Relation.ReflTransGen QStep initState s

/-- The structural queue invariant: the three lists are duplicate-free
and pairwise disjoint, every queued or in-flight job still has retry
budget, and every dead-lettered job's hash records exactly
`MAX_RETRIES` retries. -/
def QInv (s : QueueState) : Prop :=
  s.pending.Nodup ∧ s.processing.Nodup ∧ s.dead.Nodup ∧
  (∀ j, j ∈ s.pending → j ∉ s.processing) ∧
  (∀ j, j ∈ s.pending → j ∉ s.dead) ∧
  (∀ j, j ∈ s.processing → j ∉ s.dead) ∧
  (∀ j, j ∈ s.pending → retriesOf s j < MAX_RETRIES) ∧
  (∀ j, j ∈ s.processing → retriesOf s j < MAX_RETRIES) ∧
  (∀ j, j ∈ s.dead → ∃ m, s.meta j = some m ∧ m.retries = some MAX_RETRIES)

theorem lrem1_subset {l : List String} {j x : String} (h : x ∈ lrem1 l j) : x ∈ l := by
  induction l with
  | nil => simpa [lrem1] using h
  | cons a as ih =>
    by_cases hj : a = j
    · simp [lrem1, hj] at h
      exact List.mem_cons_of_mem _ h
    · simp [lrem1, hj] at h
      rcases h with h | h
      · simp [h]
      · exact List.mem_cons_of_mem _ (ih h)

theorem lrem1_of_not_mem {l : List String} {j : String} (h : j ∉ l) :
    lrem1 l j = l := by
  induction l with
  | nil => rfl
  | cons a as ih =>
    have ha : a ≠ j := fun e => h (by simp [e])
    have : j ∉ as := fun hm => h (List.mem_cons_of_mem _ hm)
    simp [lrem1, ha, ih this]

theorem lrem1_nodup {l : List String} {j : String} (h : l.Nodup) :
    (lrem1 l j).Nodup := by
  induction l with
  | nil => simpa [lrem1]
  | cons a as ih =>
    rcases List.nodup_cons.mp h with ⟨ha, has⟩
    by_cases hj : a = j
    · simpa [lrem1, hj] using has
    · simp only [lrem1, if_neg hj]
      exact List.nodup_cons.mpr ⟨fun hm => ha (lrem1_subset hm), ih has⟩

theorem not_mem_lrem1_self {l : List String} {j : String} (h : l.Nodup) :
    j ∉ lrem1 l j := by
  induction l with
  | nil => simp [lrem1]
  | cons a as ih =>
    rcases List.nodup_cons.mp h with ⟨ha, has⟩
    by_cases hj : a = j
    · simpa [lrem1, hj, hj ▸ ha]
    · simp only [lrem1, if_neg hj, List.mem_cons]
      rintro (h1 | h1)
      · exact hj h1.symm
      · exact ih has h1

theorem mem_lrem1_of_ne {l : List String} {j x : String} (hx : x ∈ l) (hne : x ≠ j) :
    x ∈ lrem1 l j := by
  induction l with
  | nil => simpa using hx
  | cons a as ih =>
    by_cases hj : a = j
    · simp [lrem1, hj]
      rcases List.mem_cons.mp hx with h | h
      · exact absurd (h.trans hj) hne
      · exact h
    · simp only [lrem1, if_neg hj, List.mem_cons]
      rcases List.mem_cons.mp hx with h | h
      · exact Or.inl h
      · exact Or.inr (ih h)

theorem getLast?_mem {l : List String} {j : String} (h : l.getLast? = some j) :
    j ∈ l := by
  cases l with
  | nil => simp at h
  | cons a as =>
    have := List.getLast?_eq_getLast (a :: as) (by simp)
    rw [this] at h
    exact (Option.some_inj.mp h) ▸ List.getLast_mem (by simp)

theorem mem_of_mem_dropLast {l : List String} {x : String} (h : x ∈ l.dropLast) :
    x ∈ l :=
  List.mem_of_mem_dropLast h

end Queue

namespace Queue

theorem hsetMeta_same (μ : String → Option TaskMeta) (j : String) (f : TaskMeta → TaskMeta) :
    hsetMeta μ j f j = some (f ((μ j).getD {})) := by
  simp [hsetMeta]

theorem hsetMeta_other (μ : String → Option TaskMeta) (j : String) (f : TaskMeta → TaskMeta)
    {x : String} (h : x ≠ j) : hsetMeta μ j f x = μ x := by
  simp [hsetMeta, h]

theorem lrem1_append_cons {pre rest : List String} {x : String} (hx : x ∉ pre) :
    lrem1 (pre ++ x :: rest) x = pre ++ rest := by
  induction pre with
  | nil => simp [lrem1]
  | cons a as ih =>
    have ha : a ≠ x := fun e => hx (by simp [e])
    have : x ∉ as := fun hm => hx (List.mem_cons_of_mem _ hm)
    simp [lrem1, ha, ih this]

theorem eq_dropLast_append_getLast {l : List String} {j : String}
    (h : l.getLast? = some j) : l = l.dropLast ++ [j] := by
  cases l with
  | nil => simp at h
  | cons a as =>
    have hne : (a :: as) ≠ ([] : List String) := by simp
    have h2 := List.getLast?_eq_getLast (a :: as) hne
    rw [h2, Option.some_inj] at h
    rw [← h]
    exact (List.dropLast_append_getLast hne).symm

/-- Full characterization of the `recover_stale_tasks` loop on a suffix
`rest` of the processing snapshot, for duplicate-free processing lists. -/
theorem recover_aux (now : Int) :
    ∀ (rest : List String) (st : QueueState) (n : Nat) (pre : List String),
      (pre ++ rest).Nodup →
      st.processing = pre ++ rest →
      (rest.foldl (recoverStep now) (st, n)).2
          = n + (rest.filter (staleB now st.meta)).length ∧
      (rest.foldl (recoverStep now) (st, n)).1.processing
          = pre ++ rest.filter (keepB now st.meta) ∧
      (rest.foldl (recoverStep now) (st, n)).1.pending
          = (rest.filter (staleB now st.meta)).reverse ++ st.pending ∧
      (rest.foldl (recoverStep now) (st, n)).1.dead = st.dead ∧
      (∀ x, x ∉ rest → (rest.foldl (recoverStep now) (st, n)).1.meta x = st.meta x) ∧
      (∀ x ∈ rest, staleB now st.meta x = true →
        (rest.foldl (recoverStep now) (st, n)).1.meta x
          = hsetMeta st.meta x (fun m => { m with status := some "queued" }) x) ∧
      (∀ x ∈ rest, staleB now st.meta x = false →
        (rest.foldl (recoverStep now) (st, n)).1.meta x = st.meta x) := by
  intro rest
  induction rest with
  | nil =>
    intro st n pre _ hproc
    refine ⟨by simp, by simpa using hproc, by simp, rfl, fun x _ => rfl, by simp, by simp⟩
  | cons x rest ih =>
    intro st n pre hnd hproc
    have hxpre : x ∉ pre := by
      intro hm
      have := (List.nodup_append.mp hnd).2.2
      exact this hm (by simp)
    have hxrest : x ∉ rest := by
      have := (List.nodup_append.mp hnd).2.1
      exact (List.nodup_cons.mp this).1
    have hnd' : (pre ++ rest).Nodup :=
      List.Nodup.sublist (List.Sublist.append_left (List.sublist_cons_self x rest) pre) hnd
    have hfold : (x :: rest).foldl (recoverStep now) (st, n)
        = rest.foldl (recoverStep now) (recoverStep now (st, n) x) := rfl
    cases hm : st.meta x with
    | none =>
      have hstale : staleB now st.meta x = false := by simp [staleB, hm]
      have hkeep : keepB now st.meta x = false := by simp [keepB, hm]
      have hstep : recoverStep now (st, n) x
          = ({ st with processing := pre ++ rest }, n) := by
        simp [recoverStep, hm, hproc, lrem1_append_cons hxpre]
      obtain ⟨ih1, ih2, ih3, ih4, ih5, ih6, ih7⟩ :=
        ih { st with processing := pre ++ rest } n pre hnd' rfl
      rw [hfold, hstep]
      refine ⟨?_, ?_, ?_, ?_, ?_, ?_, ?_⟩
      · rw [ih1]; simp [hstale]
      · rw [ih2]; simp [hkeep]
      · rw [ih3]; simp [hstale]
      · exact ih4
      · intro y hy
        exact ih5 y (fun hm2 => hy (List.mem_cons_of_mem _ hm2))
      · intro y hy hs
        rcases List.mem_cons.mp hy with h | h
        · rw [h] at hs; rw [hstale] at hs; exact absurd hs (by simp)
        · exact ih6 y h hs
      · intro y hy hs
        rcases List.mem_cons.mp hy with h | h
        · subst h; exact ih5 y hxrest
        · exact ih7 y h hs
    | some m =>
      by_cases hc : 0 < startedAt m ∧ now - startedAt m > STALE_TASK_TIMEOUT
      · -- stale entry: moved back to pending, counted
        have hstale : staleB now st.meta x = true := by
          simp only [staleB, hm, decide_eq_true hc]
        set st1 : QueueState := update_task_status
          { st with processing := lrem1 st.processing x, pending := x :: st.pending }
          x "queued" with hst1
        have hstep : recoverStep now (st, n) x = (st1, n + 1) := by
          simp [recoverStep, hm, hc]
        have hst1proc : st1.processing = pre ++ rest := by
          simp [hst1, update_task_status, hproc, lrem1_append_cons hxpre]
        have hmeta_eq : ∀ y, y ≠ x → st1.meta y = st.meta y := by
          intro y hy
          simp [hst1, update_task_status, hsetMeta_other _ _ _ hy]
        have hstale_eq : ∀ y ∈ rest, staleB now st1.meta y = staleB now st.meta y := by
          intro y hy
          have : y ≠ x := fun e => hxrest (e ▸ hy)
          simp [staleB, hmeta_eq y this]
        have hkeep_eq : ∀ y ∈ rest, keepB now st1.meta y = keepB now st.meta y := by
          intro y hy
          have : y ≠ x := fun e => hxrest (e ▸ hy)
          simp [keepB, hmeta_eq y this]
        obtain ⟨ih1, ih2, ih3, ih4, ih5, ih6, ih7⟩ := ih st1 (n + 1) pre hnd' hst1proc
        rw [List.filter_congr hstale_eq] at ih1 ih3
        rw [List.filter_congr hkeep_eq] at ih2
        rw [hfold, hstep]
        refine ⟨?_, ?_, ?_, ?_, ?_, ?_, ?_⟩
        · rw [ih1]; simp [hstale]; omega
        · rw [ih2]
          have hkeepx : keepB now st.meta x = false := by
            simp only [keepB, hm, decide_eq_true hc, Bool.not_true]
          simp [hkeepx]
        · rw [ih3]
          simp [hstale, hst1, update_task_status]
        · rw [ih4]; simp [hst1, update_task_status]
        · intro y hy
          have hyx : y ≠ x := fun e => hy (by simp [e])
          have hyr : y ∉ rest := fun hm2 => hy (List.mem_cons_of_mem _ hm2)
          rw [ih5 y hyr, hmeta_eq y hyx]
        · intro y hy hs
          rcases List.mem_cons.mp hy with h | h
          · subst h
            rw [ih5 y hxrest]
            simp [hst1, update_task_status, hsetMeta, hm, startedAt]
          · rw [ih6 y h (by rw [hstale_eq y h, hs])]
            have hyx : y ≠ x := fun e => hxrest (e ▸ h)
            simp [hsetMeta, hyx, hmeta_eq y hyx]
        · intro y hy hs
          rcases List.mem_cons.mp hy with h | h
          · subst h; rw [hstale] at hs; exact absurd hs (by simp)
          · have hyx : y ≠ x := fun e => hxrest (e ▸ h)
            rw [ih7 y h (by rw [hstale_eq y h, hs]), hmeta_eq y hyx]
      · -- fresh entry: left in place
        have hstale : staleB now st.meta x = false := by
          simp only [staleB, hm, decide_eq_false hc]
        have hkeep : keepB now st.meta x = true := by
          simp only [keepB, hm, decide_eq_false hc, Bool.not_false]
        have hstep : recoverStep now (st, n) x = (st, n) := by
          simp [recoverStep, hm, hc]
        obtain ⟨ih1, ih2, ih3, ih4, ih5, ih6, ih7⟩ :=
          ih st n (pre ++ [x]) (by simpa using hnd) (by simpa using hproc)
        rw [hfold, hstep]
        refine ⟨?_, ?_, ?_, ?_, ?_, ?_, ?_⟩
        · rw [ih1]; simp [hstale]
        · rw [ih2]; simp [hkeep]
        · rw [ih3]; simp [hstale]
        · exact ih4
        · intro y hy
          exact ih5 y (fun hm2 => hy (List.mem_cons_of_mem _ hm2))
        · intro y hy hs
          rcases List.mem_cons.mp hy with h | h
          · subst h; rw [hstale] at hs; exact absurd hs (by simp)
          · exact ih6 y h hs
        · intro y hy hs
          rcases List.mem_cons.mp hy with h | h
          · subst h; exact ih5 y hxrest
          · exact ih7 y h hs

/-- Closed form of `recover_stale_tasks` on a duplicate-free processing
list: the recovered ids are exactly the stale ones, orphans are dropped,
dead is untouched, and the returned count is the number recovered. -/
theorem recover_stale_spec (now : Int) (s : QueueState) (h : s.processing.Nodup) :
    (recover_stale_tasks now s).2
        = (s.processing.filter (staleB now s.meta)).length ∧
    (recover_stale_tasks now s).1.processing
        = s.processing.filter (keepB now s.meta) ∧
    (recover_stale_tasks now s).1.pending
        = (s.processing.filter (staleB now s.meta)).reverse ++ s.pending ∧
    (recover_stale_tasks now s).1.dead = s.dead ∧
    (∀ x, x ∉ s.processing → (recover_stale_tasks now s).1.meta x = s.meta x) ∧
    (∀ x ∈ s.processing, staleB now s.meta x = true →
      (recover_stale_tasks now s).1.meta x
        = hsetMeta s.meta x (fun m => { m with status := some "queued" }) x) ∧
    (∀ x ∈ s.processing, staleB now s.meta x = false →
      (recover_stale_tasks now s).1.meta x = s.meta x) := by
  have := recover_aux now s.processing s 0 [] (by simpa using h) (by simp)
  simpa [recover_stale_tasks] using this

theorem retriesOf_hset_status (s : QueueState) (j x : String) (st : String) :
    retriesOf (update_task_status s j st) x = retriesOf s x := by
  by_cases h : x = j
  · subst h
    simp [retriesOf, update_task_status, hsetMeta]
    cases s.meta x <;> simp
  · simp [retriesOf, update_task_status, hsetMeta_other _ _ _ h]

theorem recover_retriesOf (now : Int) (s : QueueState) (h : s.processing.Nodup)
    (x : String) : retriesOf (recover_stale_tasks now s).1 x = retriesOf s x := by
  obtain ⟨-, -, -, -, h5, h6, h7⟩ := recover_stale_spec now s h
  by_cases hx : x ∈ s.processing
  · cases hs : staleB now s.meta x with
    | false => simp [retriesOf, h7 x hx hs]
    | true =>
      rw [retriesOf, h6 x hx hs, hsetMeta_same]
      simp [retriesOf]
      cases s.meta x <;> simp
  · simp [retriesOf, h5 x hx]

theorem recover_meta_dead (now : Int) (s : QueueState) (h : s.processing.Nodup)
    (x : String) (hx : x ∉ s.processing) :
    (recover_stale_tasks now s).1.meta x = s.meta x := by
  obtain ⟨-, -, -, -, h5, -, -⟩ := recover_stale_spec now s h
  exact h5 x hx

end Queue

namespace Queue

theorem dequeue_inversion {now : Int} {s : QueueState} {j : String} {s' : QueueState}
    (h : dequeue_task now s = some (j, s')) :
    s.pending.getLast? = some j ∧
    s'.pending = s.pending.dropLast ∧
    s'.processing = j :: s.processing ∧
    s'.dead = s.dead ∧
    s'.meta = hsetMeta s.meta j (fun m => { m with processing_started_at := some now }) := by
  unfold dequeue_task at h
  cases hl : s.pending.getLast? with
  | none => rw [hl] at h; simp at h
  | some a =>
    rw [hl] at h
    simp only [Option.some_inj, Prod.mk.injEq] at h
    obtain ⟨rfl, rfl⟩ := h
    exact ⟨rfl, rfl, rfl, rfl, rfl⟩

theorem retries_hsetMeta_preserve (μ : String → Option TaskMeta) (j x : String)
    (f : TaskMeta → TaskMeta) (hf : ∀ m, (f m).retries = m.retries) :
    ((hsetMeta μ j f x).bind TaskMeta.retries).getD 0
      = ((μ x).bind TaskMeta.retries).getD 0 := by
  by_cases h : x = j
  · subst h
    rw [hsetMeta_same]
    cases hμ : μ x with
    | none => simp [hμ, hf]
    | some m => simp [hμ, hf]
  · rw [hsetMeta_other _ _ _ h]

theorem qinv_enqueue {s : QueueState} (hs : QInv s) (now : Int) (u j tt pl : String)
    (h1 : j ∉ s.pending) (h2 : j ∉ s.processing) (h3 : j ∉ s.dead) :
    QInv (enqueue_task now u j tt pl s).1 := by
  obtain ⟨n1, n2, n3, d12, d13, d23, r1, r2, r3⟩ := hs
  set s' := (enqueue_task now u j tt pl s).1 with hs'
  have hp : s'.pending = j :: s.pending := rfl
  have hpr : s'.processing = s.processing := rfl
  have hd : s'.dead = s.dead := rfl
  have hmo : ∀ x, x ≠ j → s'.meta x = s.meta x := by
    intro x hx
    simp only [hs', enqueue_task]
    exact hsetMeta_other _ _ _ hx
  have hrj : retriesOf s' j = 0 := by
    simp [retriesOf, hs', enqueue_task, hsetMeta]
  have hro : ∀ x, x ≠ j → retriesOf s' x = retriesOf s x := by
    intro x hx
    simp [retriesOf, hmo x hx]
  refine ⟨?_, ?_, ?_, ?_, ?_, ?_, ?_, ?_, ?_⟩
  · rw [hp]; exact List.nodup_cons.mpr ⟨h1, n1⟩
  · rw [hpr]; exact n2
  · rw [hd]; exact n3
  · rw [hp, hpr]
    intro x hx
    rcases List.mem_cons.mp hx with rfl | hx
    · exact h2
    · exact d12 x hx
  · rw [hp, hd]
    intro x hx
    rcases List.mem_cons.mp hx with rfl | hx
    · exact h3
    · exact d13 x hx
  · rw [hpr, hd]; exact d23
  · rw [hp]
    intro x hx
    rcases List.mem_cons.mp hx with rfl | hx
    · rw [hrj]; simp [MAX_RETRIES]
    · by_cases hxj : x = j
      · subst hxj; rw [hrj]; simp [MAX_RETRIES]
      · rw [hro x hxj]; exact r1 x hx
  · rw [hpr]
    intro x hx
    have hxj : x ≠ j := fun e => h2 (e ▸ hx)
    rw [hro x hxj]; exact r2 x hx
  · rw [hd]
    intro x hx
    have hxj : x ≠ j := fun e => h3 (e ▸ hx)
    rw [hmo x hxj]; exact r3 x hx

theorem qinv_dequeue {now : Int} {s : QueueState} {j : String} {s' : QueueState}
    (hs : QInv s) (h : dequeue_task now s = some (j, s')) : QInv s' := by
  obtain ⟨n1, n2, n3, d12, d13, d23, r1, r2, r3⟩ := hs
  obtain ⟨hlast, hp, hpr, hd, hm⟩ := dequeue_inversion h
  have hjp : j ∈ s.pending := getLast?_mem hlast
  have hsplit : s.pending = s.pending.dropLast ++ [j] := eq_dropLast_append_getLast hlast
  have hjdl : j ∉ s.pending.dropLast := by
    have := hsplit ▸ n1
    exact fun hmem => (List.disjoint_of_nodup_append this) hmem (by simp)
  have hmo : ∀ x, x ≠ j → s'.meta x = s.meta x := by
    intro x hx
    rw [hm]; exact hsetMeta_other _ _ _ hx
  have hro : ∀ x, retriesOf s' x = retriesOf s x := by
    intro x
    simp only [retriesOf, hm]
    exact retries_hsetMeta_preserve _ _ _ _ (fun m => rfl)
  refine ⟨?_, ?_, ?_, ?_, ?_, ?_, ?_, ?_, ?_⟩
  · rw [hp]; exact List.Nodup.sublist (List.dropLast_sublist _) n1
  · rw [hpr]
    exact List.nodup_cons.mpr ⟨d12 j hjp, n2⟩
  · rw [hd]; exact n3
  · rw [hp, hpr]
    intro x hx
    have hxp : x ∈ s.pending := mem_of_mem_dropLast hx
    simp only [List.mem_cons]
    rintro (rfl | hc)
    · exact hjdl hx
    · exact d12 x hxp hc
  · rw [hp, hd]
    intro x hx
    exact d13 x (mem_of_mem_dropLast hx)
  · rw [hpr, hd]
    intro x hx
    rcases List.mem_cons.mp hx with rfl | hx
    · exact d13 x hjp
    · exact d23 x hx
  · rw [hp]
    intro x hx
    rw [hro]
    exact r1 x (mem_of_mem_dropLast hx)
  · rw [hpr]
    intro x hx
    rw [hro]
    rcases List.mem_cons.mp hx with rfl | hx
    · exact r1 x hjp
    · exact r2 x hx
  · rw [hd]
    intro x hx
    have hxj : x ≠ j := fun e => d13 j hjp (e ▸ hx)
    rw [hmo x hxj]
    exact r3 x hx

theorem qinv_ack {s : QueueState} (hs : QInv s) (j : String) : QInv (ack_task s j) := by
  obtain ⟨n1, n2, n3, d12, d13, d23, r1, r2, r3⟩ := hs
  set s' := ack_task s j with hs'
  have hp : s'.pending = s.pending := rfl
  have hpr : s'.processing = lrem1 s.processing j := rfl
  have hd : s'.dead = s.dead := rfl
  have hmo : ∀ x, x ≠ j → s'.meta x = s.meta x := by
    intro x hx
    simp only [hs', ack_task, update_task_status]
    exact hsetMeta_other _ _ _ hx
  have hro : ∀ x, retriesOf s' x = retriesOf s x := by
    intro x
    exact retriesOf_hset_status _ _ _ _
  refine ⟨?_, ?_, ?_, ?_, ?_, ?_, ?_, ?_, ?_⟩
  · rw [hp]; exact n1
  · rw [hpr]; exact lrem1_nodup n2
  · rw [hd]; exact n3
  · rw [hp, hpr]
    intro x hx hc
    exact d12 x hx (lrem1_subset hc)
  · rw [hp, hd]; exact d13
  · rw [hpr, hd]
    intro x hx
    exact d23 x (lrem1_subset hx)
  · rw [hp]
    intro x hx
    rw [hro]; exact r1 x hx
  · rw [hpr]
    intro x hx
    rw [hro]; exact r2 x (lrem1_subset hx)
  · rw [hd]
    intro x hx
    by_cases hxj : x = j
    · subst hxj
      rcases r3 x hx with ⟨m, hm1, hm2⟩
      refine ⟨{ m with status := some "completed" }, ?_, hm2⟩
      simp [hs', ack_task, update_task_status, hsetMeta, hm1]
    · rw [hmo x hxj]
      exact r3 x hx

theorem nack_processing (s : QueueState) (j err : String) :
    (nack_task s j err).processing = lrem1 s.processing j := by
  unfold nack_task
  dsimp only
  split_ifs <;> rfl

theorem nack_pending_requeue (s : QueueState) (j err : String)
    (h : retriesOf s j + 1 < MAX_RETRIES) :
    (nack_task s j err).pending = j :: s.pending ∧
    (nack_task s j err).dead = s.dead := by
  have h' : ((s.meta j).bind TaskMeta.retries).getD 0 + 1 < MAX_RETRIES := h
  unfold nack_task
  dsimp only
  rw [if_pos h']
  split_ifs <;> exact ⟨rfl, rfl⟩

theorem nack_dead_letter (s : QueueState) (j err : String)
    (h : ¬ retriesOf s j + 1 < MAX_RETRIES) :
    (nack_task s j err).pending = s.pending ∧
    (nack_task s j err).dead = j :: s.dead := by
  have h' : ¬ ((s.meta j).bind TaskMeta.retries).getD 0 + 1 < MAX_RETRIES := h
  unfold nack_task
  dsimp only
  rw [if_neg h']
  split_ifs <;> exact ⟨rfl, rfl⟩

theorem nack_meta_other (s : QueueState) (j err x : String) (hx : x ≠ j) :
    (nack_task s j err).meta x = s.meta x := by
  unfold nack_task
  dsimp only
  split_ifs <;> simp [update_task_status, hsetMeta, hx]

theorem nack_meta_retries (s : QueueState) (j err : String) :
    ((nack_task s j err).meta j).bind TaskMeta.retries = some (retriesOf s j + 1) := by
  unfold nack_task
  dsimp only
  split_ifs <;> simp [update_task_status, hsetMeta, retriesOf]

theorem nack_meta_status_requeue (s : QueueState) (j err : String)
    (h : retriesOf s j + 1 < MAX_RETRIES) :
    ((nack_task s j err).meta j).bind TaskMeta.status = some "queued" := by
  have h' : ((s.meta j).bind TaskMeta.retries).getD 0 + 1 < MAX_RETRIES := h
  unfold nack_task
  dsimp only
  rw [if_pos h']
  split_ifs <;> simp [update_task_status, hsetMeta]

theorem nack_meta_status_dead (s : QueueState) (j err : String)
    (h : ¬ retriesOf s j + 1 < MAX_RETRIES) :
    ((nack_task s j err).meta j).bind TaskMeta.status = some "dead_letter" := by
  have h' : ¬ ((s.meta j).bind TaskMeta.retries).getD 0 + 1 < MAX_RETRIES := h
  unfold nack_task
  dsimp only
  rw [if_neg h']
  split_ifs <;> simp [update_task_status, hsetMeta]

theorem nack_meta_last_error (s : QueueState) (j err : String) (he : err ≠ "") :
    ((nack_task s j err).meta j).bind TaskMeta.last_error = some (err.take 500) := by
  unfold nack_task
  dsimp only
  rw [if_pos he]
  split_ifs <;> simp [update_task_status, hsetMeta]

theorem nack_meta_self (s : QueueState) (j err : String) :
    ∃ m, (nack_task s j err).meta j = some m ∧
      m.retries = some (retriesOf s j + 1) ∧
      (retriesOf s j + 1 < MAX_RETRIES → m.status = some "queued") ∧
      (¬ retriesOf s j + 1 < MAX_RETRIES → m.status = some "dead_letter") ∧
      (err ≠ "" → m.last_error = some (err.take 500)) := by
  have hr := nack_meta_retries s j err
  cases hm : (nack_task s j err).meta j with
  | none => rw [hm] at hr; simp at hr
  | some m =>
    rw [hm] at hr
    simp only [Option.some_bind] at hr
    refine ⟨m, rfl, hr, ?_, ?_, ?_⟩
    · intro h
      have := nack_meta_status_requeue s j err h
      rw [hm] at this
      simpa using this
    · intro h
      have := nack_meta_status_dead s j err h
      rw [hm] at this
      simpa using this
    · intro he
      have := nack_meta_last_error s j err he
      rw [hm] at this
      simpa using this

theorem nack_retriesOf_self (s : QueueState) (j err : String) :
    retriesOf (nack_task s j err) j = retriesOf s j + 1 := by
  have := nack_meta_retries s j err
  simp [retriesOf, this]

theorem qinv_nack {s : QueueState} (hs : QInv s) (j err : String)
    (hj : j ∈ s.processing) : QInv (nack_task s j err) := by
  obtain ⟨n1, n2, n3, d12, d13, d23, r1, r2, r3⟩ := hs
  have hjp : j ∉ s.pending := fun hp => d12 j hp hj
  have hjd : j ∉ s.dead := d23 j hj
  have hpr : (nack_task s j err).processing = lrem1 s.processing j := nack_processing s j err
  have hro : ∀ x, x ≠ j → retriesOf (nack_task s j err) x = retriesOf s x := by
    intro x hx
    simp [retriesOf, nack_meta_other s j err x hx]
  have hrlt : retriesOf s j < MAX_RETRIES := r2 j hj
  by_cases hc : retriesOf s j + 1 < MAX_RETRIES
  · obtain ⟨hp, hd⟩ := nack_pending_requeue s j err hc
    refine ⟨?_, ?_, ?_, ?_, ?_, ?_, ?_, ?_, ?_⟩
    · rw [hp]; exact List.nodup_cons.mpr ⟨hjp, n1⟩
    · rw [hpr]; exact lrem1_nodup n2
    · rw [hd]; exact n3
    · rw [hp, hpr]
      intro x hx
      rcases List.mem_cons.mp hx with rfl | hx
      · exact not_mem_lrem1_self n2
      · exact fun hc2 => d12 x hx (lrem1_subset hc2)
    · rw [hp, hd]
      intro x hx
      rcases List.mem_cons.mp hx with rfl | hx
      · exact hjd
      · exact d13 x hx
    · rw [hpr, hd]
      intro x hx
      exact d23 x (lrem1_subset hx)
    · rw [hp]
      intro x hx
      rcases List.mem_cons.mp hx with rfl | hx
      · rw [nack_retriesOf_self]; exact hc
      · by_cases hxj : x = j
        · subst hxj; rw [nack_retriesOf_self]; exact hc
        · rw [hro x hxj]; exact r1 x hx
    · rw [hpr]
      intro x hx
      have hxj : x ≠ j := fun e => not_mem_lrem1_self n2 (e ▸ hx)
      rw [hro x hxj]
      exact r2 x (lrem1_subset hx)
    · rw [hd]
      intro x hx
      have hxj : x ≠ j := fun e => hjd (e ▸ hx)
      rw [nack_meta_other s j err x hxj]
      exact r3 x hx
  · obtain ⟨hp, hd⟩ := nack_dead_letter s j err hc
    have hr3 : retriesOf s j + 1 = MAX_RETRIES := by omega
    refine ⟨?_, ?_, ?_, ?_, ?_, ?_, ?_, ?_, ?_⟩
    · rw [hp]; exact n1
    · rw [hpr]; exact lrem1_nodup n2
    · rw [hd]; exact List.nodup_cons.mpr ⟨hjd, n3⟩
    · rw [hp, hpr]
      intro x hx
      exact fun hc2 => d12 x hx (lrem1_subset hc2)
    · rw [hp, hd]
      intro x hx
      simp only [List.mem_cons]
      rintro (rfl | hc2)
      · exact hjp hx
      · exact d13 x hx hc2
    · rw [hpr, hd]
      intro x hx
      have hxj : x ≠ j := fun e => not_mem_lrem1_self n2 (e ▸ hx)
      simp only [List.mem_cons]
      rintro (rfl | hc2)
      · exact hxj rfl
      · exact d23 x (lrem1_subset hx) hc2
    · rw [hp]
      intro x hx
      have hxj : x ≠ j := fun e => hjp (e ▸ hx)
      rw [hro x hxj]; exact r1 x hx
    · rw [hpr]
      intro x hx
      have hxj : x ≠ j := fun e => not_mem_lrem1_self n2 (e ▸ hx)
      rw [hro x hxj]
      exact r2 x (lrem1_subset hx)
    · rw [hd]
      intro x hx
      rcases List.mem_cons.mp hx with rfl | hx
      · obtain ⟨m, hm, hr, -⟩ := nack_meta_self s x err
        exact ⟨m, hm, by rw [hr, hr3]⟩
      · have hxj : x ≠ j := fun e => hjd (e ▸ hx)
        rw [nack_meta_other s j err x hxj]
        exact r3 x hx

theorem retry_dead_components (s : QueueState) (j : String)
    (hmeta : s.meta j ≠ none) :
    (retry_dead_letter s j).1.pending = j :: s.pending ∧
    (retry_dead_letter s j).1.processing = s.processing ∧
    (retry_dead_letter s j).1.dead = lrem1 s.dead j ∧
    (∀ x, x ≠ j → (retry_dead_letter s j).1.meta x = s.meta x) ∧
    retriesOf (retry_dead_letter s j).1 j = 0 := by
  refine ⟨?_, ?_, ?_, ?_, ?_⟩ <;>
    simp [retry_dead_letter, hmeta, update_task_status, hsetMeta, retriesOf]
  intro x hx
  simp [hx]

theorem qinv_retryDead {s : QueueState} (hs : QInv s) (j : String)
    (hj : j ∈ s.dead) : QInv (retry_dead_letter s j).1 := by
  obtain ⟨n1, n2, n3, d12, d13, d23, r1, r2, r3⟩ := hs
  have hmeta : s.meta j ≠ none := by
    obtain ⟨m, hm, -⟩ := r3 j hj
    simp [hm]
  obtain ⟨hp, hpr, hd, hmo, hr0⟩ := retry_dead_components s j hmeta
  have hjp : j ∉ s.pending := fun hp2 => d13 j hp2 hj
  have hjpr : j ∉ s.processing := fun hp2 => d23 j hp2 hj
  have hro : ∀ x, x ≠ j → retriesOf (retry_dead_letter s j).1 x = retriesOf s x := by
    intro x hx
    simp [retriesOf, hmo x hx]
  refine ⟨?_, ?_, ?_, ?_, ?_, ?_, ?_, ?_, ?_⟩
  · rw [hp]; exact List.nodup_cons.mpr ⟨hjp, n1⟩
  · rw [hpr]; exact n2
  · rw [hd]; exact lrem1_nodup n3
  · rw [hp, hpr]
    intro x hx
    rcases List.mem_cons.mp hx with rfl | hx
    · exact hjpr
    · exact d12 x hx
  · rw [hp, hd]
    intro x hx
    rcases List.mem_cons.mp hx with rfl | hx
    · exact not_mem_lrem1_self n3
    · exact fun hc => d13 x hx (lrem1_subset hc)
  · rw [hpr, hd]
    intro x hx
    exact fun hc => d23 x hx (lrem1_subset hc)
  · rw [hp]
    intro x hx
    rcases List.mem_cons.mp hx with rfl | hx
    · rw [hr0]; simp [MAX_RETRIES]
    · by_cases hxj : x = j
      · subst hxj; rw [hr0]; simp [MAX_RETRIES]
      · rw [hro x hxj]; exact r1 x hx
  · rw [hpr]
    intro x hx
    have hxj : x ≠ j := fun e => hjpr (e ▸ hx)
    rw [hro x hxj]; exact r2 x hx
  · rw [hd]
    intro x hx
    have hxj : x ≠ j := fun e => not_mem_lrem1_self n3 (e ▸ hx)
    rw [hmo x hxj]
    exact r3 x (lrem1_subset hx)

theorem qinv_recover {s : QueueState} (hs : QInv s) (now : Int) :
    QInv (recover_stale_tasks now s).1 := by
  obtain ⟨n1, n2, n3, d12, d13, d23, r1, r2, r3⟩ := hs
  obtain ⟨-, h2, h3, h4, h5, -, -⟩ := recover_stale_spec now s n2
  have hstale_sub : ∀ x, x ∈ s.processing.filter (staleB now s.meta) → x ∈ s.processing :=
    fun x hx => List.mem_of_mem_filter hx
  have hkeep_sub : ∀ x, x ∈ s.processing.filter (keepB now s.meta) → x ∈ s.processing :=
    fun x hx => List.mem_of_mem_filter hx
  have hstale_keep : ∀ x, staleB now s.meta x = true → keepB now s.meta x = false := by
    intro x hx
    unfold staleB at hx
    unfold keepB
    cases hμ : s.meta x with
    | none => rfl
    | some m =>
      simp only [hμ] at hx ⊢
      simp [hx]
  have hro : ∀ x, retriesOf (recover_stale_tasks now s).1 x = retriesOf s x :=
    recover_retriesOf now s n2
  refine ⟨?_, ?_, ?_, ?_, ?_, ?_, ?_, ?_, ?_⟩
  · rw [h3]
    refine List.Nodup.append ?_ n1 ?_
    · exact List.nodup_reverse.mpr (List.Nodup.filter _ n2)
    · intro x hx hx2
      exact d12 x hx2 (hstale_sub x (List.mem_reverse.mp hx))
  · rw [h2]; exact List.Nodup.filter _ n2
  · rw [h4]; exact n3
  · rw [h3, h2]
    intro x hx
    rcases List.mem_append.mp hx with hx | hx
    · have hst := List.of_mem_filter (List.mem_reverse.mp hx)
      intro hc
      have hk := List.of_mem_filter hc
      rw [hstale_keep x hst] at hk
      exact absurd hk (by simp)
    · exact fun hc => d12 x hx (hkeep_sub x hc)
  · rw [h3, h4]
    intro x hx
    rcases List.mem_append.mp hx with hx | hx
    · exact d23 x (hstale_sub x (List.mem_reverse.mp hx))
    · exact d13 x hx
  · rw [h2, h4]
    intro x hx
    exact d23 x (hkeep_sub x hx)
  · rw [h3]
    intro x hx
    rw [hro]
    rcases List.mem_append.mp hx with hx | hx
    · exact r2 x (hstale_sub x (List.mem_reverse.mp hx))
    · exact r1 x hx
  · rw [h2]
    intro x hx
    rw [hro]
    exact r2 x (hkeep_sub x hx)
  · rw [h4]
    intro x hx
    have hxpr : x ∉ s.processing := fun hc => d23 x hc hx
    rw [h5 x hxpr]
    exact r3 x hx

theorem qinv_init : QInv initState := by
  refine ⟨?_, ?_, ?_, ?_, ?_, ?_, ?_, ?_, ?_⟩ <;> simp [initState]

theorem qinv_step {s s' : QueueState} (hs : QInv s) (h : QStep s s') : QInv s' := by
  cases h with
  | enqueue now u j tt pl s h1 h2 h3 => exact qinv_enqueue hs now u j tt pl h1 h2 h3
  | dequeue now s j s' hd => exact qinv_dequeue hs hd
  | ack s j hj => exact qinv_ack hs j
  | nack s j err hj => exact qinv_nack hs j err hj
  | recover now s => exact qinv_recover hs now
  | retryDead s j hj => exact qinv_retryDead hs j hj

theorem qinv_reachable {s : QueueState} (h : Reachable s) : QInv s := by
  induction h with
  | refl => exact qinv_init
  | tail _ hstep ih => exact qinv_step ih hstep

end Queue

namespace Queue

/-- Index of the first occurrence of `a` in `l` (length of `l` when absent). -/
def idxOf : List String → String → Nat
  | [], _ => 0
  | x :: xs, a => if x = a then 0 else idxOf xs a + 1

theorem idxOf_cons_self (a : String) (xs : List String) : idxOf (a :: xs) a = 0 := by
  simp [idxOf]

theorem idxOf_cons_ne {x a : String} (xs : List String) (h : x ≠ a) :
    idxOf (x :: xs) a = idxOf xs a + 1 := by
  simp [idxOf, h]

theorem idxOf_lt_length {l : List String} {a : String} (h : a ∈ l) :
    idxOf l a < l.length := by
  induction l with
  | nil => simp at h
  | cons x xs ih =>
    by_cases hx : x = a
    · simp [idxOf, hx]
    · rw [idxOf_cons_ne xs hx]
      have : a ∈ xs := by
        rcases List.mem_cons.mp h with h1 | h1
        · exact absurd h1.symm hx
        · exact h1
      simpa using ih this

theorem idxOf_append_left {l1 l2 : List String} {a : String} (h : a ∈ l1) :
    idxOf (l1 ++ l2) a = idxOf l1 a := by
  induction l1 with
  | nil => simp at h
  | cons x xs ih =>
    by_cases hx : x = a
    · simp [idxOf, hx]
    · have : a ∈ xs := by
        rcases List.mem_cons.mp h with h1 | h1
        · exact absurd h1.symm hx
        · exact h1
      simp [idxOf, hx, ih this]

theorem idxOf_append_right {l1 l2 : List String} {a : String} (h : a ∉ l1) :
    idxOf (l1 ++ l2) a = l1.length + idxOf l2 a := by
  induction l1 with
  | nil => simp
  | cons x xs ih =>
    have hx : x ≠ a := fun e => h (by simp [e])
    have : a ∉ xs := fun hm => h (List.mem_cons_of_mem _ hm)
    simp [idxOf, hx, ih this]
    omega

/-- `a` will be dequeued strictly before `b` from the pending list of `s`:
BRPOPLPUSH serves from the tail, so the comparison is on positions from
the tail (indices in the reversed list). -/
def queueAhead (s : QueueState) (a b : String) : Prop :=
  idxOf s.pending.reverse a < idxOf s.pending.reverse b

/-- A queue step extended with a ghost dequeue log: the second component
records, in order, the job ids handed to the consumer by `dequeue_task`. -/
inductive TStep : QueueState × List String → QueueState × List String → Prop where
  | enqueue (now : Int) (u j tt pl : String) (s : QueueState) (g : List String) :
      j ∉ s.pending → j ∉ s.processing → j ∉ s.dead →
      TStep (s, g) ((enqueue_task now u j tt pl s).1, g)
  | dequeue (now : Int) (s : QueueState) (j : String) (s' : QueueState) (g : List String) :
      dequeue_task now s = some (j, s') → TStep (s, g) (s', g ++ [j])
  | ack (s : QueueState) (j : String) (g : List String) :
      j ∈ s.processing → TStep (s, g) (ack_task s j, g)
  | nack (s : QueueState) (j err : String) (g : List String) :
      j ∈ s.processing → TStep (s, g) (nack_task s j err, g)
  | recover (now : Int) (s : QueueState) (g : List String) :
      TStep (s, g) ((recover_stale_tasks now s).1, g)
  | retryDead (s : QueueState) (j : String) (g : List String) :
      j ∈ s.dead → TStep (s, g) ((retry_dead_letter s j).1, g)

theorem recover_pending_extends (now : Int) :
    ∀ (l : List String) (acc : QueueState × Nat),
      ∃ e, (l.foldl (recoverStep now) acc).1.pending = e ++ acc.1.pending := by
  intro l
  induction l with
  | nil => exact fun acc => ⟨[], rfl⟩
  | cons x xs ih =>
    intro acc
    have hfold : (x :: xs).foldl (recoverStep now) acc
        = xs.foldl (recoverStep now) (recoverStep now acc x) := rfl
    rw [hfold]
    obtain ⟨e, he⟩ := ih (recoverStep now acc x)
    cases hm : acc.1.meta x with
    | none =>
      refine ⟨e, ?_⟩
      rw [he]
      simp [recoverStep, hm]
    | some m =>
      by_cases hc : 0 < startedAt m ∧ now - startedAt m > STALE_TASK_TIMEOUT
      · refine ⟨e ++ [x], ?_⟩
        rw [he]
        simp [recoverStep, hm, hc, update_task_status]
      · refine ⟨e, ?_⟩
        rw [he]
        simp [recoverStep, hm, hc]

/-- Every step either pushes some block of ids onto the head of pending
(leaving the log alone), or pops exactly the tail id and appends it to
the dequeue log. -/
theorem tstep_shape {x y : QueueState × List String} (h : TStep x y) :
    (∃ l, y.1.pending = l ++ x.1.pending ∧ y.2 = x.2) ∨
    (∃ j, x.1.pending = y.1.pending ++ [j] ∧ y.2 = x.2 ++ [j]) := by
  cases h with
  | enqueue now u j tt pl s g h1 h2 h3 =>
    exact Or.inl ⟨[j], rfl, rfl⟩
  | dequeue now s j s' g hd =>
    obtain ⟨hlast, hp, -, -, -⟩ := dequeue_inversion hd
    refine Or.inr ⟨j, ?_, rfl⟩
    rw [hp]
    exact eq_dropLast_append_getLast hlast
  | ack s j g hj => exact Or.inl ⟨[], rfl, rfl⟩
  | nack s j err g hj =>
    by_cases hc : retriesOf s j + 1 < MAX_RETRIES
    · exact Or.inl ⟨[j], (nack_pending_requeue s j err hc).1, rfl⟩
    · exact Or.inl ⟨[], by rw [(nack_dead_letter s j err hc).1]; rfl, rfl⟩
  | recover now s g =>
    obtain ⟨e, he⟩ := recover_pending_extends now s.processing (s, 0)
    exact Or.inl ⟨e, he, rfl⟩
  | retryDead s j g hj =>
    by_cases hm : s.meta j = none
    · refine Or.inl ⟨[], ?_, rfl⟩
      simp [retry_dead_letter, hm]
    · refine Or.inl ⟨[j], ?_, rfl⟩
      exact (retry_dead_components s j hm).1

/-- A ghost step that leaves the tracked ids `a` and `b` alone: it never
pushes either one onto pending (in particular neither is retried,
recovered, or re-enqueued by the step). -/
def AvoidsAB (a b : String) (x y : QueueState × List String) : Prop :=
  TStep x y ∧
  (a ∈ y.1.pending → a ∈ x.1.pending) ∧
  (b ∈ y.1.pending → b ∈ x.1.pending)

/-- The FIFO tracking invariant for the ordered pair `(a, b)`:
either both are still pending with `a` ahead, or `a` has been served and
`b` is still pending, or both have been served with `a` first. -/
def FifoInv (a b : String) (x : QueueState × List String) : Prop :=
  (a ∈ x.1.pending ∧ b ∈ x.1.pending ∧ queueAhead x.1 a b ∧ a ∉ x.2 ∧ b ∉ x.2) ∨
  (a ∈ x.2 ∧ b ∈ x.1.pending ∧ b ∉ x.2) ∨
  (∃ g1 g2 g3, x.2 = g1 ++ a :: g2 ++ b :: g3)

theorem fifoInv_step {a b : String} {x y : QueueState × List String}
    (hab : a ≠ b) (h : AvoidsAB a b x y) (hinv : FifoInv a b x) : FifoInv a b y := by
  obtain ⟨hstep, -, -⟩ := h
  rcases tstep_shape hstep with ⟨l, hp, hg⟩ | ⟨j, hp, hg⟩
  · -- a push step: pending grows at the head, the log is unchanged
    rcases hinv with ⟨ha, hb, hlt, hag, hbg⟩ | ⟨hag, hb, hbg⟩ | ⟨g1, g2, g3, hsplit⟩
    · refine Or.inl ⟨?_, ?_, ?_, ?_, ?_⟩
      · rw [hp]; exact List.mem_append_right _ ha
      · rw [hp]; exact List.mem_append_right _ hb
      · unfold queueAhead at hlt ⊢
        rw [hp, List.reverse_append,
          idxOf_append_left (List.mem_reverse.mpr ha),
          idxOf_append_left (List.mem_reverse.mpr hb)]
        exact hlt
      · rw [hg]; exact hag
      · rw [hg]; exact hbg
    · refine Or.inr (Or.inl ⟨?_, ?_, ?_⟩)
      · rw [hg]; exact hag
      · rw [hp]; exact List.mem_append_right _ hb
      · rw [hg]; exact hbg
    · exact Or.inr (Or.inr ⟨g1, g2, g3, hg ▸ hsplit⟩)
  · -- a dequeue step: the tail id j is served and logged
    rcases hinv with ⟨ha, hb, hlt, hag, hbg⟩ | ⟨hag, hb, hbg⟩ | ⟨g1, g2, g3, hsplit⟩
    · by_cases hjb : j = b
      · exfalso
        subst hjb
        unfold queueAhead at hlt
        rw [hp, List.reverse_append] at hlt
        simp only [List.reverse_cons, List.reverse_nil, List.nil_append,
          List.singleton_append] at hlt
        rw [idxOf_cons_self] at hlt
        omega
      · by_cases hja : j = a
        · subst hja
          refine Or.inr (Or.inl ⟨?_, ?_, ?_⟩)
          · rw [hg]; simp
          · have : b ∈ y.1.pending ++ [j] := hp ▸ hb
            rcases List.mem_append.mp this with h1 | h1
            · exact h1
            · simp at h1; exact absurd h1.symm hjb
          · rw [hg]
            simp only [List.mem_append, List.mem_singleton]
            rintro (h1 | h1)
            · exact hbg h1
            · exact hjb h1.symm
        · refine Or.inl ⟨?_, ?_, ?_, ?_, ?_⟩
          · have : a ∈ y.1.pending ++ [j] := hp ▸ ha
            rcases List.mem_append.mp this with h1 | h1
            · exact h1
            · simp at h1; exact absurd h1.symm hja
          · have : b ∈ y.1.pending ++ [j] := hp ▸ hb
            rcases List.mem_append.mp this with h1 | h1
            · exact h1
            · simp at h1; exact absurd h1.symm hjb
          · unfold queueAhead at hlt ⊢
            rw [hp] at hlt
            simp only [List.reverse_append, List.reverse_cons, List.reverse_nil,
              List.nil_append, List.singleton_append] at hlt
            rw [idxOf_cons_ne _ hja, idxOf_cons_ne _ hjb] at hlt
            omega
          · rw [hg]
            simp only [List.mem_append, List.mem_singleton]
            rintro (h1 | h1)
            · exact hag h1
            · exact hja h1.symm
          · rw [hg]
            simp only [List.mem_append, List.mem_singleton]
            rintro (h1 | h1)
            · exact hbg h1
            · exact hjb h1.symm
    · by_cases hjb : j = b
      · subst hjb
        obtain ⟨g1, g2, hsplit⟩ := List.append_of_mem hag
        refine Or.inr (Or.inr ⟨g1, g2, [], ?_⟩)
        rw [hg, hsplit]
      · refine Or.inr (Or.inl ⟨?_, ?_, ?_⟩)
        · rw [hg]; exact List.mem_append_left _ hag
        · have : b ∈ y.1.pending ++ [j] := hp ▸ hb
          rcases List.mem_append.mp this with h1 | h1
          · exact h1
          · simp at h1; exact absurd h1.symm hjb
        · rw [hg]
          simp only [List.mem_append, List.mem_singleton]
          rintro (h1 | h1)
          · exact hbg h1
          · exact hjb h1.symm
    · refine Or.inr (Or.inr ⟨g1, g2, g3 ++ [j], ?_⟩)
      rw [hg, hsplit]
      simp

theorem fifoInv_star {a b : String} {x y : QueueState × List String}
    (hab : a ≠ b) (h : Relation.ReflTransGen (AvoidsAB a b) x y)
    (hinv : FifoInv a b x) : FifoInv a b y := by
  induction h with
  | refl => exact hinv
  | tail _ hstep ih => exact fifoInv_step hab hstep ih

/-- Freshly enqueueing `b` while `a` is pending establishes the tracking
invariant: `a` is ahead of `b`. -/
theorem fifoInv_start (now : Int) (u b tt pl : String) (s : QueueState) (a : String)
    (ha : a ∈ s.pending) (hb : b ∉ s.pending) (_hab : a ≠ b) :
    FifoInv a b ((enqueue_task now u b tt pl s).1, []) := by
  refine Or.inl ⟨?_, ?_, ?_, ?_, ?_⟩
  · exact List.mem_cons_of_mem _ ha
  · exact List.mem_cons_self _ _
  · unfold queueAhead
    show idxOf (b :: s.pending).reverse a < idxOf (b :: s.pending).reverse b
    simp only [List.reverse_cons]
    rw [idxOf_append_left (List.mem_reverse.mpr ha),
      idxOf_append_right (fun hm => hb (List.mem_reverse.mp hm))]
    have := idxOf_lt_length (List.mem_reverse.mpr ha)
    simp only [List.length_reverse] at this ⊢
    omega
  · simp
  · simp

end Queue

namespace RateLimiter

theorem foldl_min_eq {x : Int} {xs : List Int} (h : ∀ y ∈ xs, x ≤ y) :
    xs.foldl min x = x := by
  induction xs generalizing x with
  | nil => rfl
  | cons y ys ih =>
    have hxy : min x y = x := min_eq_left (h y (by simp))
    simp only [List.foldl_cons, hxy]
    exact ih fun z hz => h z (by simp [hz])

theorem min?_eq_head?_of_sorted {l : List Int} (h : l.Sorted (· ≤ ·)) :
    l.min? = l.head? := by
  cases l with
  | nil => rfl
  | cons x xs =>
    have hx : ∀ y ∈ xs, x ≤ y := (List.sorted_cons.mp h).1
    simp [List.min?, foldl_min_eq hx]

theorem length_filter_lt {l : List Int} {p : Int → Bool} {x : Int}
    (hx : x ∈ l) (hpx : p x = false) : (l.filter p).length < l.length := by
  induction l with
  | nil => simp at hx
  | cons y ys ih =>
    rcases List.mem_cons.mp hx with rfl | hm
    · rw [List.filter_cons, hpx]
      simp only [cond_false, List.length_cons]
      exact Nat.lt_succ_of_le (List.length_filter_le _ _)
    · rw [List.filter_cons]
      cases hpy : p y <;> simp only [cond_false, cond_true, List.length_cons]
      · exact Nat.lt_succ_of_lt (ih hm)
      · exact Nat.succ_lt_succ (ih hm)

/-- Under non-negative timestamps, the Redis trim
(`ZREMRANGEBYSCORE key 0 (now - window)`) and the fallback trim
(strict `>` comparison) retain the same entries. -/
theorem trim_eq (log : List Int) (now window_seconds : Int)
    (hnn : ∀ ts ∈ log, 0 ≤ ts) :
    log.filter (fun ts => decide (¬(0 ≤ ts ∧ ts ≤ now - window_seconds)))
      = log.filter (fun ts => decide (ts > now - window_seconds)) := by
  apply List.filter_congr
  intro ts hts
  have h0 : 0 ≤ ts := hnn ts hts
  simp only [decide_eq_decide]
  constructor
  · intro h
    by_contra hc
    exact h ⟨h0, by omega⟩
  · intro h hc
    omega

end RateLimiter

open Queue RateLimiter Main Autoscaler

/-- C7: for every queue_depth ≥ 0 and processing_count ≥ 0, with
load = queue_depth + processing_count, the scaling decision is
MIN_REPLICAS when load = 0 and clamp(ceil(load / TARGET), MIN, MAX)
otherwise; hence MIN ≤ desired ≤ MAX whenever MIN ≤ MAX, and with the
defaults MIN=1, MAX=8, TARGET=5 the table load 0→1, 1→1, 5→1, 6→2,
40→8, 41→8 holds. -/
theorem C7_autoscaler_decision (queue_depth processing_count MIN MAX T : Nat)
    (hMM : MIN ≤ MAX) :
    (get_scaling_decision queue_depth processing_count MIN MAX T
      = if queue_depth + processing_count = 0 then MIN
        else max MIN (min MAX (ceilDiv (queue_depth + processing_count) T))) ∧
    MIN ≤ get_scaling_decision queue_depth processing_count MIN MAX T ∧
    get_scaling_decision queue_depth processing_count MIN MAX T ≤ MAX ∧
    (get_scaling_decision 0 0 1 8 5 = 1 ∧
     get_scaling_decision 1 0 1 8 5 = 1 ∧
     get_scaling_decision 5 0 1 8 5 = 1 ∧
     get_scaling_decision 6 0 1 8 5 = 2 ∧
     get_scaling_decision 40 0 1 8 5 = 8 ∧
     get_scaling_decision 41 0 1 8 5 = 8) := by
  refine ⟨?_, ?_, ?_, by decide, by decide, by decide, by decide, by decide, by decide⟩
  · unfold get_scaling_decision
    by_cases h : queue_depth + processing_count = 0
    · simp [h, min_eq_right hMM]
    · have : queue_depth + processing_count > 0 := Nat.pos_of_ne_zero h
      simp [h, this]
  · exact le_max_left _ _
  · unfold get_scaling_decision
    exact max_le hMM (min_le_left _ _)

/-- C7 witness: the theorem applied at queue_depth = 6,
processing_count = 0 with the default configuration. -/
theorem C7_autoscaler_decision_witness :
    (1 : Nat) ≤ 8 ∧ get_scaling_decision 6 0 1 8 5 = 2 :=
  ⟨by decide, ((C7_autoscaler_decision 6 0 1 8 5 (by decide)).2.2.2).2.2.2.1⟩

/-- C8: on a rate-limit denial `handle_webhook` answers HTTP 429 with a
Retry-After header equal to the limiter's retry_after, leaving the queue
and the slot counter untouched; in fallback mode with no free slot it
answers HTTP 503 with no state change; and when a slot is granted,
`_run_and_release` restores the slot counter on every exit path of the
spawned job. -/
theorem C8_webhook_admission :
    (∀ (q : Option QueueState) (rl : RLResult) (active : Nat) (now : Int)
        (u j pl : String), rl.allowed = false →
      handle_webhook q rl active now u j pl
        = ({ status_code := 429, retry_after_header := some rl.retry_after,
             job_queued := false }, q, active, false)) ∧
    (∀ (rl : RLResult) (active : Nat) (now : Int) (u j pl : String),
      rl.allowed = true → MAX_CONCURRENT_JOBS ≤ active →
      handle_webhook none rl active now u j pl
        = ({ status_code := 503 }, none, active, false)) ∧
    (∀ (rl : RLResult) (active : Nat) (now : Int) (u j pl : String),
      rl.allowed = true → active < MAX_CONCURRENT_JOBS →
      handle_webhook none rl active now u j pl
        = ({ status_code := 200 }, none, active + 1, true)) ∧
    (∀ (active : Nat) (outcome : BodyOutcome),
      (run_and_release (active + 1) outcome).2 = active) := by
  refine ⟨?_, ?_, ?_, ?_⟩
  · intro q rl active now u j pl h
    simp [handle_webhook, h]
  · intro rl active now u j pl h hcap
    simp [handle_webhook, h, acquire_job_slot, hcap]
  · intro rl active now u j pl h hcap
    simp [handle_webhook, h, acquire_job_slot, Nat.not_le.mpr hcap]
  · intro active outcome
    simp [run_and_release, release_job_slot]

/-- C8 witness: a denied limiter result yields 429 with the limiter's
retry value; a saturated fallback yields 503; a granted slot is restored
after a job that raises. -/
theorem C8_webhook_admission_witness :
    handle_webhook (some initState)
        { allowed := false, remaining := 0, retry_after := 17 } 0 5 "u" "j" "p"
      = ({ status_code := 429, retry_after_header := some 17, job_queued := false },
         some initState, 0, false) ∧
    handle_webhook none { allowed := true, remaining := 2, retry_after := 0 } 3 5 "u" "j" "p"
      = ({ status_code := 503 }, none, 3, false) ∧
    (run_and_release (0 + 1) (BodyOutcome.raises "boom")).2 = 0 :=
  ⟨C8_webhook_admission.1 (some initState) _ 0 5 "u" "j" "p" rfl,
   C8_webhook_admission.2.1 _ 3 5 "u" "j" "p" rfl (by decide),
   C8_webhook_admission.2.2.2 0 (BodyOutcome.raises "boom")⟩

/-- A 201-character error message. -/
def longMsg : String := String.mk (List.replicate 201 'x')

set_option maxRecDepth 100000 in
/-- C1 counterexample: on an uncaught exception with a 201-character
message, `process_video_job`'s handler writes the FULL message to the
jobs row (not the 200-character truncation the claim requires) and does
NOT re-raise (the `Bool` flag `false` = no exception escapes to the
consumer loop, so the dispatcher acks rather than nacks).
`process_fashion_job` behaves identically. -/
theorem C1_counterexample :
    (process_video_job (BodyOutcome.raises longMsg)).2 = false ∧
    (process_video_job (BodyOutcome.raises longMsg)).1.error_message = some longMsg ∧
    longMsg.length = 201 ∧
    some longMsg ≠ some (longMsg.take 200) ∧
    (process_fashion_job (BodyOutcome.raises longMsg)).2 = false := by
  refine ⟨rfl, rfl, by decide, by decide, rfl⟩

/-- C1 (amended): on an uncaught exception the orchestrators write
status = failed with the full, untruncated error message to the external
job row and swallow the exception (no rethrow); consequently the
consumer loop acks the job instead of nacking it, and the queue-level
retry path is not taken for stage failures. -/
theorem C1_amended_exception_handling (msg : String) (s : QueueState) (j : String) :
    process_video_job (BodyOutcome.raises msg)
      = ({ status := "failed", error_message := some msg, output_url := none }, false) ∧
    process_fashion_job (BodyOutcome.raises msg)
      = ({ status := "failed", error_message := some msg, output_url := none }, false) ∧
    video_job_propagates (BodyOutcome.raises msg) = none ∧
    consumer_handle_result s j (video_job_propagates (BodyOutcome.raises msg))
      = ack_task s j :=
  ⟨rfl, rfl, rfl, rfl⟩

/-- The fallback limiter's trim: entries strictly inside the window. -/
def trimmed (log : List Int) (now window_seconds : Int) : List Int :=
  log.filter (fun ts => decide (ts > now - window_seconds))

/-- C3 counterexample: at max_requests = 0 with an empty log, both
backends deny, but the distributed backend returns
retry_after = window_seconds (3600) while the fallback returns
window_seconds + 1 (3601): they do not compute the same function, and
the claimed formula `oldest_score + window − now + 1` has no oldest
entry to refer to. -/
theorem C3_counterexample :
    (redis_check_rate_limit [] 1000 0 3600).1.allowed = false ∧
    (fallback_check_rate_limit [] 1000 0 3600).1.allowed = false ∧
    (redis_check_rate_limit [] 1000 0 3600).1.retry_after = 3600 ∧
    (fallback_check_rate_limit [] 1000 0 3600).1.retry_after = 3601 ∧
    (redis_check_rate_limit [] 1000 0 3600).1
      ≠ (fallback_check_rate_limit [] 1000 0 3600).1 := by
  decide

/-- C3 (amended): for max ≥ 1 (so that a denial implies a non-empty
trimmed log), on a sorted log of non-negative timestamps both backends
compute the same function: trim keeps exactly the entries strictly
greater than now − window; if the remaining count reaches max the call
is denied with remaining 0 and retry_after = oldest + window − now + 1
and nothing is recorded; otherwise the current timestamp is recorded and
the call is allowed with remaining = max − count − 1 and retry_after 0. -/
theorem C3_amended_rate_limit (log : List Int) (now max_requests window_seconds : Int)
    (hsorted : log.Sorted (· ≤ ·)) (hnn : ∀ ts ∈ log, 0 ≤ ts)
    (hmax : 1 ≤ max_requests) :
    (redis_check_rate_limit log now max_requests window_seconds).1
      = (fallback_check_rate_limit log now max_requests window_seconds).1 ∧
    (max_requests ≤ ((trimmed log now window_seconds).length : Int) →
      ∃ oldest, (trimmed log now window_seconds).head? = some oldest ∧
        (redis_check_rate_limit log now max_requests window_seconds).1
          = { allowed := false, remaining := 0
              retry_after := oldest + window_seconds - now + 1 } ∧
        (redis_check_rate_limit log now max_requests window_seconds).2
          = trimmed log now window_seconds ∧
        (fallback_check_rate_limit log now max_requests window_seconds).2
          = trimmed log now window_seconds) ∧
    (((trimmed log now window_seconds).length : Int) < max_requests →
      (redis_check_rate_limit log now max_requests window_seconds).1
        = { allowed := true
            remaining := max_requests - (trimmed log now window_seconds).length - 1
            retry_after := 0 } ∧
      (fallback_check_rate_limit log now max_requests window_seconds).2
        = trimmed log now window_seconds ++ [now] ∧
      now ∈ (redis_check_rate_limit log now max_requests window_seconds).2) := by
  have htrim : log.filter (fun ts => decide (¬(0 ≤ ts ∧ ts ≤ now - window_seconds)))
      = trimmed log now window_seconds := trim_eq log now window_seconds hnn
  have hks : (trimmed log now window_seconds).Sorted (· ≤ ·) :=
    List.Pairwise.sublist (List.filter_sublist _) hsorted
  have hmin : (trimmed log now window_seconds).min?
      = (trimmed log now window_seconds).head? := min?_eq_head?_of_sorted hks
  by_cases hc : max_requests ≤ ((trimmed log now window_seconds).length : Int)
  · -- denied branch
    have hne : trimmed log now window_seconds ≠ [] := by
      intro h
      rw [h] at hc
      simp at hc
      omega
    obtain ⟨o, ho⟩ : ∃ o, (trimmed log now window_seconds).head? = some o := by
      cases hk : trimmed log now window_seconds with
      | nil => exact absurd hk hne
      | cons a l => exact ⟨a, rfl⟩
    have hredis : (redis_check_rate_limit log now max_requests window_seconds)
        = ({ allowed := false, remaining := 0
             retry_after := o + window_seconds - now + 1 },
           trimmed log now window_seconds) := by
      unfold redis_check_rate_limit
      dsimp only
      rw [htrim, if_pos hc, hmin, ho]
    have hfb : (fallback_check_rate_limit log now max_requests window_seconds)
        = ({ allowed := false, remaining := 0
             retry_after := o + window_seconds - now + 1 },
           trimmed log now window_seconds) := by
      unfold fallback_check_rate_limit
      dsimp only
      rw [show (log.filter fun ts => decide (ts > now - window_seconds))
          = trimmed log now window_seconds from rfl, if_pos hc, ho]
      rfl
    refine ⟨by rw [hredis, hfb], fun _ => ⟨o, ho, ?_, ?_, ?_⟩, fun hlt => absurd hc (by omega)⟩
    · rw [hredis]
    · rw [hredis]
    · rw [hfb]
  · -- allowed branch
    have hlt : ((trimmed log now window_seconds).length : Int) < max_requests := by omega
    have hredis : (redis_check_rate_limit log now max_requests window_seconds)
        = ({ allowed := true
             remaining := max_requests - (trimmed log now window_seconds).length - 1
             retry_after := 0 },
           if now ∈ trimmed log now window_seconds then trimmed log now window_seconds
           else trimmed log now window_seconds ++ [now]) := by
      unfold redis_check_rate_limit
      dsimp only
      rw [htrim, if_neg hc]
    have hfb : (fallback_check_rate_limit log now max_requests window_seconds)
        = ({ allowed := true
             remaining := max_requests - (trimmed log now window_seconds).length - 1
             retry_after := 0 },
           trimmed log now window_seconds ++ [now]) := by
      unfold fallback_check_rate_limit
      dsimp only
      rw [show (log.filter fun ts => decide (ts > now - window_seconds))
          = trimmed log now window_seconds from rfl, if_neg hc]
    refine ⟨by rw [hredis, hfb], fun hge => absurd hge hc, fun _ => ⟨?_, ?_, ?_⟩⟩
    · rw [hredis]
    · rw [hfb]
    · rw [hredis]
      by_cases hmem : now ∈ trimmed log now window_seconds
      · simpa [hmem] using hmem
      · simp [hmem]

/-- C3 witness: the amended theorem applied to the sorted non-negative
log [10, 20] at now = 25 with max = 2, window = 100. -/
theorem C3_amended_rate_limit_witness :
    (redis_check_rate_limit [10, 20] 25 2 100).1
      = (fallback_check_rate_limit [10, 20] 25 2 100).1 :=
  (C3_amended_rate_limit [10, 20] 25 2 100 (by decide)
    (by intro ts hts; fin_cases hts <;> decide) (by decide)).1

/-- C10: a denied check consumes no quota — in both backends the denial
branch appends nothing, leaving exactly the trimmed pre-call log; the
recorded-log size never exceeds max; and, in both backends, after a
denial, once the oldest recorded entry has left the window, the next
call on the (unchanged) log is allowed (for the Redis backend under
the non-negative timestamps its own ZADD writes produce). -/
theorem C10_denied_consumes_no_quota :
    (∀ (log : List Int) (now max_requests window_seconds : Int),
      (fallback_check_rate_limit log now max_requests window_seconds).1.allowed = false →
      (fallback_check_rate_limit log now max_requests window_seconds).2
        = trimmed log now window_seconds) ∧
    (∀ (log : List Int) (now max_requests window_seconds : Int),
      (redis_check_rate_limit log now max_requests window_seconds).1.allowed = false →
      (redis_check_rate_limit log now max_requests window_seconds).2
        = log.filter (fun ts => decide (¬(0 ≤ ts ∧ ts ≤ now - window_seconds)))) ∧
    (∀ (log : List Int) (now max_requests window_seconds : Int),
      ((log.length : Int) ≤ max_requests) →
      (((fallback_check_rate_limit log now max_requests window_seconds).2).length : Int)
        ≤ max_requests) ∧
    (∀ (log : List Int) (now max_requests window_seconds : Int),
      ((log.length : Int) ≤ max_requests) →
      (((redis_check_rate_limit log now max_requests window_seconds).2).length : Int)
        ≤ max_requests) ∧
    (∀ (log : List Int) (t t2 max_requests window_seconds oldest : Int),
      (log.length : Int) ≤ max_requests →
      (fallback_check_rate_limit log t max_requests window_seconds).1.allowed = false →
      (trimmed log t window_seconds).head? = some oldest →
      oldest ≤ t2 - window_seconds →
      (fallback_check_rate_limit
          ((fallback_check_rate_limit log t max_requests window_seconds).2)
          t2 max_requests window_seconds).1.allowed = true) ∧
    (∀ (log : List Int) (t t2 max_requests window_seconds oldest : Int),
      (∀ ts ∈ log, 0 ≤ ts) →
      (log.length : Int) ≤ max_requests →
      (redis_check_rate_limit log t max_requests window_seconds).1.allowed = false →
      (trimmed log t window_seconds).head? = some oldest →
      oldest ≤ t2 - window_seconds →
      (redis_check_rate_limit
          ((redis_check_rate_limit log t max_requests window_seconds).2)
          t2 max_requests window_seconds).1.allowed = true) := by
  have hfb_denied : ∀ (log : List Int) (now max_requests window_seconds : Int),
      (fallback_check_rate_limit log now max_requests window_seconds).1.allowed = false →
      max_requests ≤ ((trimmed log now window_seconds).length : Int) ∧
      (fallback_check_rate_limit log now max_requests window_seconds).2
        = trimmed log now window_seconds := by
    intro log now max_requests window_seconds h
    unfold fallback_check_rate_limit at h ⊢
    dsimp only at h ⊢
    by_cases hc : max_requests
        ≤ ((log.filter (fun ts => decide (ts > now - window_seconds))).length : Int)
    · rw [if_pos hc] at h ⊢
      exact ⟨hc, rfl⟩
    · rw [if_neg hc] at h
      simp at h
  have hrd_denied : ∀ (log : List Int) (now max_requests window_seconds : Int),
      (redis_check_rate_limit log now max_requests window_seconds).1.allowed = false →
      max_requests
          ≤ ((log.filter
              (fun ts => decide (¬(0 ≤ ts ∧ ts ≤ now - window_seconds)))).length : Int) ∧
      (redis_check_rate_limit log now max_requests window_seconds).2
        = log.filter (fun ts => decide (¬(0 ≤ ts ∧ ts ≤ now - window_seconds))) := by
    intro log now max_requests window_seconds h
    unfold redis_check_rate_limit at h ⊢
    dsimp only at h ⊢
    by_cases hc : max_requests
        ≤ ((log.filter (fun ts => decide (¬(0 ≤ ts ∧ ts ≤ now - window_seconds)))).length : Int)
    · rw [if_pos hc] at h ⊢
      refine ⟨hc, ?_⟩
      cases (log.filter
          (fun ts => decide (¬(0 ≤ ts ∧ ts ≤ now - window_seconds)))).min? <;> rfl
    · rw [if_neg hc] at h
      simp at h
  refine ⟨fun log now m w h => (hfb_denied log now m w h).2, ?_, ?_, ?_, ?_, ?_⟩
  · intro log now max_requests window_seconds h
    unfold redis_check_rate_limit at h ⊢
    dsimp only at h ⊢
    by_cases hc : max_requests
        ≤ ((log.filter (fun ts => decide (¬(0 ≤ ts ∧ ts ≤ now - window_seconds)))).length : Int)
    · rw [if_pos hc] at h ⊢
      cases (log.filter
          (fun ts => decide (¬(0 ≤ ts ∧ ts ≤ now - window_seconds)))).min? <;> rfl
    · rw [if_neg hc] at h
      simp at h
  · intro log now max_requests window_seconds hlen
    unfold fallback_check_rate_limit
    dsimp only
    have hfle : (log.filter (fun ts => decide (ts > now - window_seconds))).length
        ≤ log.length := List.length_filter_le _ _
    by_cases hc : max_requests
        ≤ ((log.filter (fun ts => decide (ts > now - window_seconds))).length : Int)
    · rw [if_pos hc]
      exact le_trans (by exact_mod_cast hfle) hlen
    · rw [if_neg hc]
      simp only [List.length_append, List.length_cons, List.length_nil]
      push_cast
      omega
  · intro log now max_requests window_seconds hlen
    unfold redis_check_rate_limit
    dsimp only
    have hfle : (log.filter (fun ts => decide (¬(0 ≤ ts ∧ ts ≤ now - window_seconds)))).length
        ≤ log.length := List.length_filter_le _ _
    by_cases hc : max_requests
        ≤ ((log.filter (fun ts => decide (¬(0 ≤ ts ∧ ts ≤ now - window_seconds)))).length : Int)
    · rw [if_pos hc]
      cases (log.filter
          (fun ts => decide (¬(0 ≤ ts ∧ ts ≤ now - window_seconds)))).min? <;>
        exact le_trans (by exact_mod_cast hfle) hlen
    · rw [if_neg hc]
      by_cases hmem : now ∈ log.filter (fun ts => decide (¬(0 ≤ ts ∧ ts ≤ now - window_seconds)))
      · rw [if_pos hmem]
        exact le_trans (by exact_mod_cast hfle) hlen
      · rw [if_neg hmem]
        simp only [List.length_append, List.length_cons, List.length_nil]
        push_cast
        omega
  · intro log t t2 max_requests window_seconds oldest hlen hden hold hleft
    obtain ⟨hge, hpost⟩ := hfb_denied log t max_requests window_seconds hden
    rw [hpost]
    have hkle : ((trimmed log t window_seconds).length : Int) ≤ max_requests := by
      have : (trimmed log t window_seconds).length ≤ log.length :=
        List.length_filter_le _ _
      exact le_trans (by exact_mod_cast this) hlen
    have hkeq : ((trimmed log t window_seconds).length : Int) = max_requests := by omega
    have homem : oldest ∈ trimmed log t window_seconds := by
      cases hk : trimmed log t window_seconds with
      | nil => rw [hk] at hold; simp at hold
      | cons a l =>
        rw [hk] at hold
        simp only [List.head?_cons, Option.some_inj] at hold
        subst hold
        exact List.mem_cons_self _ _
    have hlt2 : (((trimmed log t window_seconds).filter
        (fun ts => decide (ts > t2 - window_seconds))).length : Int) < max_requests := by
      have hstep := length_filter_lt (p := fun ts => decide (ts > t2 - window_seconds))
        homem (by simp only [decide_eq_false_iff_not]; omega)
      omega
    unfold fallback_check_rate_limit
    dsimp only
    rw [if_neg (by exact not_le.mpr hlt2)]
  · intro log t t2 max_requests window_seconds oldest hnn hlen hden hold hleft
    obtain ⟨hge, hpost⟩ := hrd_denied log t max_requests window_seconds hden
    have htrim : log.filter (fun ts => decide (¬(0 ≤ ts ∧ ts ≤ t - window_seconds)))
        = trimmed log t window_seconds := trim_eq log t window_seconds hnn
    rw [htrim] at hge hpost
    rw [hpost]
    have hkle : ((trimmed log t window_seconds).length : Int) ≤ max_requests := by
      have : (trimmed log t window_seconds).length ≤ log.length :=
        List.length_filter_le _ _
      exact le_trans (by exact_mod_cast this) hlen
    have hkeq : ((trimmed log t window_seconds).length : Int) = max_requests := by omega
    have homem : oldest ∈ trimmed log t window_seconds := by
      cases hk : trimmed log t window_seconds with
      | nil => rw [hk] at hold; simp at hold
      | cons a l =>
        rw [hk] at hold
        simp only [List.head?_cons, Option.some_inj] at hold
        subst hold
        exact List.mem_cons_self _ _
    have hknn : ∀ ts ∈ trimmed log t window_seconds, 0 ≤ ts := fun ts hts =>
      hnn ts (List.mem_of_mem_filter hts)
    have htrim2 : (trimmed log t window_seconds).filter
          (fun ts => decide (¬(0 ≤ ts ∧ ts ≤ t2 - window_seconds)))
        = (trimmed log t window_seconds).filter
            (fun ts => decide (ts > t2 - window_seconds)) :=
      trim_eq (trimmed log t window_seconds) t2 window_seconds hknn
    have hlt2 : (((trimmed log t window_seconds).filter
        (fun ts => decide (ts > t2 - window_seconds))).length : Int) < max_requests := by
      have hstep := length_filter_lt (p := fun ts => decide (ts > t2 - window_seconds))
        homem (by simp only [decide_eq_false_iff_not]; omega)
      omega
    unfold redis_check_rate_limit
    dsimp only
    rw [htrim2, if_neg (by exact not_le.mpr hlt2)]

/-- C10 witness: a denial at max = 1 on log [5] leaves the trimmed log
unchanged, and in both backends the call after the entry leaves the
window is allowed. -/
theorem C10_denied_consumes_no_quota_witness :
    (fallback_check_rate_limit [5] 10 1 100).2 = [5] ∧
    (fallback_check_rate_limit ((fallback_check_rate_limit [5] 10 1 100).2)
        200 1 100).1.allowed = true ∧
    (redis_check_rate_limit ((redis_check_rate_limit [5] 10 1 100).2)
        200 1 100).1.allowed = true :=
  ⟨(C10_denied_consumes_no_quota.1 [5] 10 1 100 (by decide)).trans (by decide),
   C10_denied_consumes_no_quota.2.2.2.2.1 [5] 10 200 1 100 5
     (by decide) (by decide) (by decide) (by decide),
   C10_denied_consumes_no_quota.2.2.2.2.2 [5] 10 200 1 100 5
     (by decide) (by decide) (by decide) (by decide) (by decide)⟩

/-- C2: `nack_task` on an in-flight job records the error (truncated to
500 chars when non-empty), increments the retry count, removes the id
from processing; if the incremented count is below MAX_RETRIES the id is
pushed onto the head of pending with status queued, otherwise onto dead
with status dead_letter; and in every reachable queue state, every job
in the dead list carries retry count exactly MAX_RETRIES. -/
theorem C2_nack_semantics :
    (∀ (s : QueueState) (j err : String),
      j ∈ s.processing → s.processing.Nodup →
      retriesOf (nack_task s j err) j = retriesOf s j + 1 ∧
      j ∉ (nack_task s j err).processing ∧
      (nack_task s j err).processing = lrem1 s.processing j ∧
      (err ≠ "" →
        ((nack_task s j err).meta j).bind TaskMeta.last_error = some (err.take 500)) ∧
      (retriesOf s j + 1 < MAX_RETRIES →
        (nack_task s j err).pending = j :: s.pending ∧
        (nack_task s j err).dead = s.dead ∧
        ((nack_task s j err).meta j).bind TaskMeta.status = some "queued") ∧
      (¬ retriesOf s j + 1 < MAX_RETRIES →
        (nack_task s j err).pending = s.pending ∧
        (nack_task s j err).dead = j :: s.dead ∧
        ((nack_task s j err).meta j).bind TaskMeta.status = some "dead_letter")) ∧
    (∀ s : QueueState, Reachable s → ∀ j ∈ s.dead,
      ∃ m, s.meta j = some m ∧ m.retries = some MAX_RETRIES) := by
  constructor
  · intro s j err hj hnd
    refine ⟨nack_retriesOf_self s j err, ?_, nack_processing s j err, ?_, ?_, ?_⟩
    · rw [nack_processing]
      exact not_mem_lrem1_self hnd
    · exact nack_meta_last_error s j err
    · intro hc
      obtain ⟨hp, hd⟩ := nack_pending_requeue s j err hc
      exact ⟨hp, hd, nack_meta_status_requeue s j err hc⟩
    · intro hc
      obtain ⟨hp, hd⟩ := nack_dead_letter s j err hc
      exact ⟨hp, hd, nack_meta_status_dead s j err hc⟩
  · intro s hreach j hj
    exact (qinv_reachable hreach).2.2.2.2.2.2.2.2 j hj

/-- States for the C2 witness run: one job is enqueued, then
dequeue/nack three times, landing it in the dead-letter list. -/
def c2s1 : QueueState := (enqueue_task 0 "u" "j" "video_generate" "p" initState).1

def c2s2 : QueueState := ((dequeue_task 1 c2s1).getD ("", initState)).2

def c2s3 : QueueState := nack_task c2s2 "j" "boom"

def c2s4 : QueueState := ((dequeue_task 2 c2s3).getD ("", initState)).2

def c2s5 : QueueState := nack_task c2s4 "j" "boom"

def c2s6 : QueueState := ((dequeue_task 3 c2s5).getD ("", initState)).2

def c2s7 : QueueState := nack_task c2s6 "j" "boom"

theorem c2_reachable : Reachable c2s7 := by
  have h1 : QStep initState c2s1 :=
    QStep.enqueue 0 "u" "j" "video_generate" "p" initState
      (by decide) (by decide) (by decide)
  have h2 : QStep c2s1 c2s2 := QStep.dequeue 1 c2s1 "j" c2s2 rfl
  have h3 : QStep c2s2 c2s3 := QStep.nack c2s2 "j" "boom" (by decide)
  have h4 : QStep c2s3 c2s4 := QStep.dequeue 2 c2s3 "j" c2s4 rfl
  have h5 : QStep c2s4 c2s5 := QStep.nack c2s4 "j" "boom" (by decide)
  have h6 : QStep c2s5 c2s6 := QStep.dequeue 3 c2s5 "j" c2s6 rfl
  have h7 : QStep c2s6 c2s7 := QStep.nack c2s6 "j" "boom" (by decide)
  exact .tail (.tail (.tail (.tail (.tail (.tail (.tail .refl h1) h2) h3) h4) h5) h6) h7

/-- C2 witness: the third nack moves the job to dead, and the reachable
dead-list invariant yields retry count = MAX_RETRIES for it. -/
theorem C2_nack_semantics_witness :
    "j" ∈ c2s7.dead ∧
    (∃ m, c2s7.meta "j" = some m ∧ m.retries = some MAX_RETRIES) ∧
    c2s3.pending = ["j"] :=
  ⟨by decide,
   C2_nack_semantics.2 c2s7 c2_reachable "j" (by decide),
   ((C2_nack_semantics.1 c2s2 "j" "boom" (by decide) (by decide)).2.2.2.2.1
     (by decide)).1⟩

/-- States for the C4 counterexample: enqueue a fresh job, dequeue it
(so it is in-flight), then call `retry_dead_letter` on it. -/
def c4s1 : QueueState := (enqueue_task 0 "u" "j" "video_generate" "p" initState).1

def c4s2 : QueueState := ((dequeue_task 1 c4s1).getD ("", initState)).2

def c4s3 : QueueState := (retry_dead_letter c4s2 "j").1

/-- C4 counterexample: the sequence enqueue("j"); dequeue();
retry_dead_letter("j") — three queue operations over distinct job ids —
leaves "j" in BOTH pending and processing: `retry_dead_letter` only
checks that the metadata key exists, not that the id is in the dead
list, so applied to an in-flight id it duplicates it into pending and
queue disjointness fails. -/
theorem C4_counterexample :
    dequeue_task 1 c4s1 = some ("j", c4s2) ∧
    (retry_dead_letter c4s2 "j").2 = true ∧
    "j" ∈ c4s3.pending ∧ "j" ∈ c4s3.processing := by
  refine ⟨rfl, by decide, by decide, by decide⟩

/-- C4 (amended): over any sequence of the six queue operations invoked
per their documented contracts — enqueue only for fresh ids, ack/nack
only for the in-flight id the consumer just dequeued, retry_dead_letter
only for dead-lettered ids — every job id appears in at most one of
pending, processing and dead at every reachable state. -/
theorem C4_amended_disjointness (s : QueueState) (h : Reachable s) (j : String) :
    ¬(j ∈ s.pending ∧ j ∈ s.processing) ∧
    ¬(j ∈ s.pending ∧ j ∈ s.dead) ∧
    ¬(j ∈ s.processing ∧ j ∈ s.dead) := by
  obtain ⟨-, -, -, d12, d13, d23, -, -, -⟩ := qinv_reachable h
  exact ⟨fun ⟨h1, h2⟩ => d12 j h1 h2, fun ⟨h1, h2⟩ => d13 j h1 h2,
    fun ⟨h1, h2⟩ => d23 j h1 h2⟩

theorem c4_amended_reach : Reachable c4s2 := by
  have h1 : QStep initState c4s1 :=
    QStep.enqueue 0 "u" "j" "video_generate" "p" initState
      (by decide) (by decide) (by decide)
  have h2 : QStep c4s1 c4s2 := QStep.dequeue 1 c4s1 "j" c4s2 rfl
  exact .tail (.tail .refl h1) h2

/-- C4 witness: disjointness at the reachable state with "j" in-flight. -/
theorem C4_amended_disjointness_witness :
    ¬("j" ∈ c4s2.pending ∧ "j" ∈ c4s2.processing) ∧
    ¬("j" ∈ c4s2.pending ∧ "j" ∈ c4s2.dead) ∧
    ¬("j" ∈ c4s2.processing ∧ "j" ∈ c4s2.dead) :=
  C4_amended_disjointness c4s2 c4_amended_reach "j"

namespace Queue

theorem staleB_keepB_false {now : Int} {μ : String → Option TaskMeta} {j : String}
    (h : staleB now μ j = true) : keepB now μ j = false := by
  unfold staleB at h
  unfold keepB
  cases hμ : μ j with
  | none => rfl
  | some m =>
    simp only [hμ] at h ⊢
    simp [h]

end Queue

/-- C5: `recover_stale_tasks` moves back to pending (with status queued)
exactly the in-flight ids whose stamp is strictly older than
STALE_TASK_TIMEOUT — an id at exactly the timeout stays in-flight —
removes ids without metadata from processing without requeueing them,
and returns the number of ids it recovered. -/
theorem C5_recover_stale (now : Int) (s : QueueState) (hnd : s.processing.Nodup) :
    (recover_stale_tasks now s).2
      = (s.processing.filter (staleB now s.meta)).length ∧
    (∀ j ∈ s.processing, ∀ m, s.meta j = some m → 0 < startedAt m →
      (now - startedAt m > STALE_TASK_TIMEOUT →
        j ∉ (recover_stale_tasks now s).1.processing ∧
        j ∈ (recover_stale_tasks now s).1.pending ∧
        ((recover_stale_tasks now s).1.meta j).bind TaskMeta.status = some "queued") ∧
      (¬ now - startedAt m > STALE_TASK_TIMEOUT →
        j ∈ (recover_stale_tasks now s).1.processing ∧
        ((j ∈ (recover_stale_tasks now s).1.pending) ↔ j ∈ s.pending))) ∧
    (∀ j ∈ s.processing, s.meta j = none →
      j ∉ (recover_stale_tasks now s).1.processing ∧
      ((j ∈ (recover_stale_tasks now s).1.pending) ↔ j ∈ s.pending) ∧
      staleB now s.meta j = false) := by
  obtain ⟨h1, h2, h3, -, -, h6, -⟩ := recover_stale_spec now s hnd
  refine ⟨h1, ?_, ?_⟩
  · intro j hj m hm hpos
    constructor
    · intro hstale
      have hsb : staleB now s.meta j = true := by
        unfold staleB
        simp only [hm]
        exact decide_eq_true ⟨hpos, hstale⟩
      have hkb : keepB now s.meta j = false := staleB_keepB_false hsb
      refine ⟨?_, ?_, ?_⟩
      · rw [h2]
        intro hc
        rw [List.mem_filter] at hc
        rw [hkb] at hc
        exact absurd hc.2 (by simp)
      · rw [h3]
        exact List.mem_append_left _
          (List.mem_reverse.mpr (List.mem_filter.mpr ⟨hj, hsb⟩))
      · rw [h6 j hj hsb, hsetMeta_same]
        simp
    · intro hfresh
      have hsb : staleB now s.meta j = false := by
        unfold staleB
        simp only [hm]
        exact decide_eq_false (fun hc => hfresh hc.2)
      have hkb : keepB now s.meta j = true := by
        unfold keepB
        simp only [hm]
        simp only [Bool.not_eq_true']
        exact decide_eq_false (fun hc => hfresh hc.2)
      refine ⟨?_, ?_⟩
      · rw [h2]
        exact List.mem_filter.mpr ⟨hj, hkb⟩
      · rw [h3]
        constructor
        · intro hc
          rcases List.mem_append.mp hc with hc | hc
          · have := List.mem_filter.mp (List.mem_reverse.mp hc)
            rw [hsb] at this
            exact absurd this.2 (by simp)
          · exact hc
        · exact fun hc => List.mem_append_right _ hc
  · intro j hj hm
    have hsb : staleB now s.meta j = false := by
      unfold staleB
      simp only [hm]
    have hkb : keepB now s.meta j = false := by
      unfold keepB
      simp only [hm]
    refine ⟨?_, ?_, hsb⟩
    · rw [h2]
      intro hc
      rw [List.mem_filter, hkb] at hc
      exact absurd hc.2 (by simp)
    · rw [h3]
      constructor
      · intro hc
        rcases List.mem_append.mp hc with hc | hc
        · have := List.mem_filter.mp (List.mem_reverse.mp hc)
          rw [hsb] at this
          exact absurd this.2 (by simp)
        · exact hc
      · exact fun hc => List.mem_append_right _ hc

/-- The C5 witness state: two in-flight jobs, one 601 s old (stale), one
exactly 600 s old (at the boundary), at now = 701. -/
def c5st : QueueState :=
  { pending := [], processing := ["a", "b"], dead := [],
    meta := fun j =>
      if j = "a" then some { processing_started_at := some 100 }
      else if j = "b" then some { processing_started_at := some 101 }
      else none }

/-- C5 witness: at now = 701, the 601-second job "a" is recovered to
pending, the exactly-600-second job "b" stays in processing, and the
returned count is 1. -/
theorem C5_recover_stale_witness :
    (recover_stale_tasks 701 c5st).2 = 1 ∧
    "a" ∈ (recover_stale_tasks 701 c5st).1.pending ∧
    "b" ∈ (recover_stale_tasks 701 c5st).1.processing := by
  have h := C5_recover_stale 701 c5st (by decide)
  refine ⟨h.1.trans (by decide), ?_, ?_⟩
  · exact ((h.2.1 "a" (by decide) { processing_started_at := some 100 } rfl
      (by decide)).1 (by decide)).2.1
  · exact ((h.2.1 "b" (by decide) { processing_started_at := some 101 } rfl
      (by decide)).2 (by decide)).1

/-- C9: an in-flight id whose metadata exists but carries no positive
processing_started_at (the `float(meta.get(.., 0))` default) is never
recovered, for every clock value: the guard `started_at > 0` fails, the
id stays in processing, and it is never counted. The dequeue stamp is
written to the metadata of the id only together with the atomic move
into processing. -/
theorem C9_unstamped_never_recovered (now : Int) (s : QueueState) (j : String)
    (m : TaskMeta) (hnd : s.processing.Nodup) (hj : j ∈ s.processing)
    (hm : s.meta j = some m) (hpos : ¬ 0 < startedAt m) :
    j ∈ (recover_stale_tasks now s).1.processing ∧
    staleB now s.meta j = false ∧
    j ∉ s.processing.filter (staleB now s.meta) ∧
    (recover_stale_tasks now s).2
      = (s.processing.filter (staleB now s.meta)).length ∧
    (∀ (now2 : Int) (s2 : QueueState) (j2 : String) (s3 : QueueState),
      dequeue_task now2 s2 = some (j2, s3) →
      s3.processing = j2 :: s2.processing ∧
      s3.pending = s2.pending.dropLast ∧
      ((s3.meta j2).bind TaskMeta.processing_started_at) = some now2) := by
  obtain ⟨h1, h2, -, -, -, -, -⟩ := recover_stale_spec now s hnd
  have hsb : staleB now s.meta j = false := by
    unfold staleB
    simp only [hm]
    exact decide_eq_false (fun hc => hpos hc.1)
  have hkb : keepB now s.meta j = true := by
    unfold keepB
    simp only [hm, Bool.not_eq_true']
    exact decide_eq_false (fun hc => hpos hc.1)
  refine ⟨?_, hsb, ?_, h1, ?_⟩
  · rw [h2]
    exact List.mem_filter.mpr ⟨hj, hkb⟩
  · intro hc
    rw [List.mem_filter, hsb] at hc
    exact absurd hc.2 (by simp)
  · intro now2 s2 j2 s3 hd
    obtain ⟨-, hp, hpr, -, hmeta⟩ := dequeue_inversion hd
    refine ⟨hpr, hp, ?_⟩
    rw [hmeta, hsetMeta_same]
    simp

/-- The C9 witness state: one in-flight job whose metadata hash exists
but has no processing_started_at field. -/
def c9st : QueueState :=
  { pending := [], processing := ["a"], dead := [],
    meta := fun j => if j = "a" then some {} else none }

/-- C9 witness: the unstamped in-flight job stays in processing and the
recovered count is 0, even a million seconds later. -/
theorem C9_unstamped_never_recovered_witness :
    "a" ∈ (recover_stale_tasks 1000000 c9st).1.processing ∧
    (recover_stale_tasks 1000000 c9st).2 = 0 := by
  have h := C9_unstamped_never_recovered 1000000 c9st "a" {}
    (by decide) (by decide) rfl (by decide)
  exact ⟨h.1, h.2.2.2.1.trans (by decide)⟩

/-- C6: dequeue serves pending ids in FIFO push order. `enqueue_task`
and a requeueing `nack_task` LPUSH onto the head; `dequeue_task` pops
the tail; and along any run of queue steps in which neither `a` nor `b`
is pushed back onto pending (neither is retried), if `a` was pending
when `b` was freshly enqueued then whenever `b` has been dequeued, `a`
was dequeued before it (the ghost log lists dequeues in order). A job
requeued by nack is therefore dequeued before every job enqueued after
that requeue. -/
theorem C6_fifo_order :
    (∀ (now : Int) (u j tt pl : String) (s : QueueState),
      (enqueue_task now u j tt pl s).1.pending = j :: s.pending) ∧
    (∀ (s : QueueState) (j err : String), retriesOf s j + 1 < MAX_RETRIES →
      (nack_task s j err).pending = j :: s.pending) ∧
    (∀ (now : Int) (s : QueueState) (j : String) (s' : QueueState),
      dequeue_task now s = some (j, s') → s.pending = s'.pending ++ [j]) ∧
    (∀ (now : Int) (u tt pl : String) (s : QueueState) (a b : String)
        (s2 : QueueState) (g2 : List String),
      a ∈ s.pending → b ∉ s.pending → a ≠ b →
      Relation.ReflTransGen (AvoidsAB a b)
        ((enqueue_task now u b tt pl s).1, ([] : List String)) (s2, g2) →
      b ∈ g2 →
      ∃ g1 gm g3, g2 = g1 ++ a :: gm ++ b :: g3) := by
  refine ⟨fun _ _ _ _ _ _ => rfl,
    fun s j err h => (nack_pending_requeue s j err h).1, ?_, ?_⟩
  · intro now s j s' hd
    obtain ⟨hlast, hp, -, -, -⟩ := dequeue_inversion hd
    rw [hp]
    exact eq_dropLast_append_getLast hlast
  · intro now u tt pl s a b s2 g2 ha hb hab hstar hbg
    have hinv0 : FifoInv a b ((enqueue_task now u b tt pl s).1, []) :=
      fifoInv_start now u b tt pl s a ha hb hab
    have hinv2 : FifoInv a b (s2, g2) := fifoInv_star hab hstar hinv0
    rcases hinv2 with ⟨-, -, -, -, hbg2⟩ | ⟨-, -, hbg2⟩ | ⟨g1, gm, g3, hsplit⟩
    · exact absurd hbg hbg2
    · exact absurd hbg hbg2
    · exact ⟨g1, gm, g3, hsplit⟩

/-- States for the C6 witness run: enqueue "a", enqueue "b", then two
dequeues. -/
def c6s0 : QueueState := (enqueue_task 0 "u" "a" "video_generate" "p" initState).1

def c6s1 : QueueState := (enqueue_task 1 "u" "b" "video_generate" "p" c6s0).1

def c6s2 : QueueState := ((dequeue_task 2 c6s1).getD ("", initState)).2

def c6s3 : QueueState := ((dequeue_task 3 c6s2).getD ("", initState)).2

/-- C6 witness: on the run enqueue(a); enqueue(b); dequeue; dequeue, the
dequeue log serves "a" strictly before "b". -/
theorem C6_fifo_order_witness :
    ∃ g1 gm g3, (["a", "b"] : List String) = g1 ++ "a" :: gm ++ "b" :: g3 := by
  have step1 : AvoidsAB "a" "b" (c6s1, []) (c6s2, ["a"]) :=
    ⟨TStep.dequeue 2 c6s1 "a" c6s2 [] rfl, by decide, by decide⟩
  have step2 : AvoidsAB "a" "b" (c6s2, ["a"]) (c6s3, ["a", "b"]) :=
    ⟨TStep.dequeue 3 c6s2 "b" c6s3 ["a"] rfl, by decide, by decide⟩
  have hstar : Relation.ReflTransGen (AvoidsAB "a" "b") (c6s1, []) (c6s3, ["a", "b"]) :=
    .tail (.tail .refl step1) step2
  exact C6_fifo_order.2.2.2 1 "u" "video_generate" "p" c6s0 "a" "b" c6s3 ["a", "b"]
    (by decide) (by decide) (by decide) hstar (by decide)
